import Mathlib

/-
Shallow embedding of the m-ulator ARMv6-M/ARMv7-M emulator core
(`subprojects/m-ulator/include/m-ulator/emulator.h`).

The repository ships only the class declaration (`emulator.h`); the member
function bodies (the execution engine, the memory region and the decoder
implementations) are not part of the given source tree.  Every definition
below whose doc comment starts with `Modelled from the spec:` is therefore a
model of the missing implementation, written faithfully from the
natural-language specification (spec.md, sections 3-7), with the
declarations, field names and comments of `emulator.h` as additional
authority.  Machine integers are modelled as `Nat` with explicit reduction
modulo `2^32` where the C++ code computes in `u32`.

Hook callbacks are arbitrary C++ code; they are modelled by a behaviour
function `beh : Nat -> List Cmd` assigning to each hook id the list of
hook-fabric commands (add / remove / clear / stop) its body issues, and by
an event log recording every hook invocation together with its payload.
State mutation performed by hook bodies through the public accessors is not
modelled; the claims about condition-failed instructions and STREX assume
passive (non-state-mutating) hooks, as does the specification itself.
-/

namespace Mulator

/-- 2^32, the modulus of the 32-bit machine integers (u32). -/
def U32 : Nat := 4294967296

/-- Truncation to a 32-bit unsigned integer. -/
def u32 (n : Nat) : Nat := n % U32

/-- The program counter is register 15 (R0-R12, SP = 13, LR = 14, PC = 15). -/
def pcReg : Fin 16 := 15

/-- The link register LR. -/
def lrReg : Fin 16 := 14

/-- The PSR portion of `CPU_State` (emulator.h lines 21-29): flags N, Z, C,
V, Q and the one-byte IT-state field. -/
structure PSRState where
  N : Bool
  Z : Bool
  C : Bool
  V : Bool
  Q : Bool
  it_state : Nat
deriving DecidableEq, Repr

/-- `CPU_State` (emulator.h lines 17-40): the register array, the PSR, the
exclusive-monitor address, control/special registers and the `time` counter
of executed instructions. -/
structure CPU_State where
  registers : Fin 16 → Nat
  psr : PSRState
  exclusive_address : Nat
  CCR : Nat
  PRIMASK : Nat
  FAULTMASK : Nat
  BASEPRI : Nat
  CONTROL : Nat
  time : Nat

/-- Modelled from the spec: the sentinel value of `exclusive_address`
meaning "no reservation" (spec 3: "the exclusive-monitor address
(sentinel = no reservation)").  The concrete sentinel is not in the header;
we use the all-ones u32, which is never a 4-aligned reservation base. -/
def EXCLUSIVE_NONE : Nat := 4294967295

/-- `ReturnCode` of `emulate` (spec 6 / 7). -/
inductive ReturnCode
  | OK
  | MAX_INSTRUCTIONS_REACHED
  | END_ADDRESS_REACHED
  | STOPPED
  | UNDEFINED
  | UNALIGNED
  | OUT_OF_BOUNDS
  | UNSUPPORTED
deriving DecidableEq, Repr

/-- `MemoryRegion` (spec 3 / 4.1): base offset, size in bytes, owned
contiguous buffer of bytes. -/
structure MemoryRegion where
  offset : Nat
  size : Nat
  data : List Nat
deriving DecidableEq, Repr

/-- A single address lies inside the region's window [offset, offset+size). -/
def MemoryRegion.inWindow (r : MemoryRegion) (a : Nat) : Bool :=
  decide (r.offset ≤ a ∧ a < r.offset + r.size)

/-- The byte range [addr, addr+len) lies fully inside the region's window. -/
def MemoryRegion.contains_range (r : MemoryRegion) (addr len : Nat) : Bool :=
  decide (r.offset ≤ addr ∧ addr + len ≤ r.offset + r.size)

/-- The byte stored at absolute address `a` (0 outside the buffer). -/
def MemoryRegion.byteAt (r : MemoryRegion) (a : Nat) : Nat :=
  r.data.getD (a - r.offset) 0

/-- Little-endian read of `len` bytes starting at `addr` (spec 6:
"All memory is little-endian regardless of host"). -/
def MemoryRegion.readLE (r : MemoryRegion) (addr len : Nat) : Nat :=
  (List.range len).foldr (fun k acc => acc * 256 + r.byteAt (addr + k)) 0

/-- The little-endian byte list of value `v` in `n` bytes. -/
def leBytes (v n : Nat) : List Nat :=
  (List.range n).map (fun k => v / 256 ^ k % 256)

/-- Overwrite the bytes at absolute address `addr` with `bs`. -/
def MemoryRegion.writeBytes (r : MemoryRegion) (addr : Nat) (bs : List Nat) :
    MemoryRegion :=
  { r with
    data := (List.range bs.length).foldl
      (fun d k => d.set (addr - r.offset + k) (bs.getD k 0)) r.data }

/-- Modelled from the spec: the decoded instruction record (spec 3
"Instruction record").  The decoder implementation is not in the source
tree; the opcode set below is a representative of each semantic family the
specification describes (ALU, branch, load/store, exclusive, IT). -/
inductive Opcode
  | NOP
  | MOV_imm
  | ADD_reg
  | B
  | BX
  | BLX
  | LDR_imm
  | STR_imm
  | LDREX
  | STREX
  | CLREX
  | IT_op
  | UNDEF
deriving DecidableEq, Repr

/-- Modelled from the spec: one decoded operation record (spec 3): opcode
tag, encoding width in bytes, per-instruction condition (AL = 14 unless an
IT block assigned one or the encoding carries one), operand slots and the
`setflags` boolean. -/
structure Instruction where
  opcode : Opcode
  size : Nat := 2
  condition : Nat := 14
  Rd : Fin 16 := 0
  Rn : Fin 16 := 0
  Rm : Fin 16 := 0
  Rt : Fin 16 := 0
  imm : Nat := 0
  setflags : Bool := false
deriving DecidableEq, Repr

/-- The eleven hook event classes (emulator.h lines 238-259, spec 4.4). -/
inductive HookClass
  | onFetch
  | onDecode
  | onExecute
  | beforeMemRead
  | afterMemRead
  | beforeMemWrite
  | afterMemWrite
  | beforeRegRead
  | afterRegRead
  | beforeRegWrite
  | afterRegWrite
deriving DecidableEq, Repr

/-- Listing of all eleven hook classes. -/
def allClasses : List HookClass :=
  [.onFetch, .onDecode, .onExecute,
   .beforeMemRead, .afterMemRead, .beforeMemWrite, .afterMemWrite,
   .beforeRegRead, .afterRegRead, .beforeRegWrite, .afterRegWrite]

/-- Modelled from the spec: the hook fabric state (emulator.h lines
238-276).  The eleven per-class id vectors are modelled as one function
from class to id list; `remove_hooks` is the pending-removals list,
`cleanup_requested` the deferred-cleanup flag, `next_hook_id` the
monotonically increasing id counter (spec 3: "A monotonically increasing
counter; 0 is reserved as invalid").  `issued` is a history variable
recording every id ever returned by a registration, used to state
lifetime uniqueness; it has no counterpart in the C++ state. -/
structure HookFabric where
  hooks : HookClass → List Nat
  remove_hooks : List Nat
  next_hook_id : Nat
  cleanup_requested : Bool
  issued : List Nat

/-- All ids currently present in some hook list. -/
def HookFabric.allIds (f : HookFabric) : List Nat :=
  allClasses.flatMap f.hooks

/-- Modelled from the spec: hook registration (spec 4.4): the fresh id is
the current counter value; the id is appended to the class list (insertion
order = dispatch order) and the counter incremented. -/
def addHookF (c : HookClass) (f : HookFabric) : Nat × HookFabric :=
  (f.next_hook_id,
   { f with
     hooks := Function.update f.hooks c (f.hooks c ++ [f.next_hook_id]),
     next_hook_id := f.next_hook_id + 1,
     issued := f.issued ++ [f.next_hook_id] })

/-- Modelled from the spec: a removal during dispatch appends the id to the
pending-removals list and sets the `cleanup_requested` flag (spec 4.4). -/
def pendRemove (i : Nat) (f : HookFabric) : HookFabric :=
  { f with remove_hooks := f.remove_hooks ++ [i], cleanup_requested := true }

/-- Modelled from the spec: `clear_hooks` invoked mid-dispatch is cleared
through the same deferred path (spec 4.4): every currently registered id is
marked for removal. -/
def pendClearAll (f : HookFabric) : HookFabric :=
  { f with remove_hooks := f.remove_hooks ++ f.allIds, cleanup_requested := true }

/-- Modelled from the spec: `cleanup_hooks` (emulator.h line 275): compacts
every list, erasing entries whose ids appear in the pending list, then
clears the pending list and the flag (spec 4.4). -/
def cleanup_hooks (f : HookFabric) : HookFabric :=
  { f with
    hooks := fun c => (f.hooks c).filter (fun j => decide (j ∉ f.remove_hooks)),
    remove_hooks := [],
    cleanup_requested := false }

/-- Modelled from the spec: `cleanup_hook id` (emulator.h line 276):
immediate removal of one id from every list, used by `remove_hook` outside
a dispatch. -/
def cleanup_hook (i : Nat) (f : HookFabric) : HookFabric :=
  { f with hooks := fun c => (f.hooks c).filter (fun j => decide (j ≠ i)) }

/-- Modelled from the spec: `clear_hooks` outside a dispatch drops every
list in one operation (spec 4.4); the id counter is not reset. -/
def resetHooks (f : HookFabric) : HookFabric :=
  { f with hooks := fun _ => [], remove_hooks := [], cleanup_requested := false }

/-- One recorded hook invocation: the event class payload handed to the
callback, together with the id of the hook that fired. -/
inductive Event
  | fetchEv (id addr isz : Nat)
  | decodedEv (id : Nat) (ins : Instruction)
  | executedEv (id : Nat) (ins : Instruction)
  | memAccess (c : HookClass) (id addr size value : Nat)
  | regAccess (c : HookClass) (id : Nat) (r : Fin 16) (value : Nat)
deriving DecidableEq, Repr

/-- The id of the hook that produced the event. -/
def Event.hookId : Event → Nat
  | .fetchEv id _ _ => id
  | .decodedEv id _ => id
  | .executedEv id _ => id
  | .memAccess _ id _ _ _ => id
  | .regAccess _ id _ _ => id

/-- Modelled from the spec: the hook-fabric commands a callback body may
issue (spec 4.4: a callback may register new hooks, remove any hook by id,
clear all hooks, or call `stop_emulation`). -/
inductive Cmd
  | addHook (c : HookClass)
  | removeHook (i : Nat)
  | clearHooks
  | stopEmu
deriving DecidableEq

/-- The whole emulator state: CPU state, the two memory regions, the hook
fabric, the per-call instruction counter, the running flag and the event
log (the log is a proof artefact recording hook invocations; it has no C++
counterpart). -/
structure Emu where
  cpu : CPU_State
  flash : MemoryRegion
  ram : MemoryRegion
  fab : HookFabric
  emulated_time : Nat
  running : Bool
  log : List Event

/-- Hook behaviours: the fabric commands issued by the body of each hook. -/
def Beh : Type := Nat → List Cmd

/-- Append one event to the log. -/
def addEvent (ev : Event) (e : Emu) : Emu :=
  { e with log := e.log ++ [ev] }

/-- Modelled from the spec: the state effect of one hook-callback command
issued during dispatch (spec 4.4). -/
def applyCmd (c : Cmd) (e : Emu) : Emu :=
  match c with
  | .addHook cl => { e with fab := (addHookF cl e.fab).2 }
  | .removeHook i => { e with fab := pendRemove i e.fab }
  | .clearHooks => { e with fab := pendClearAll e.fab }
  | .stopEmu => { e with running := false }

/-- Run all commands of one callback body, in order. -/
def applyCmds : List Cmd → Emu → Emu
  | [], e => e
  | c :: cs, e => applyCmds cs (applyCmd c e)

/-- Modelled from the spec: dispatch over a (frozen) id list: each hook
fires in insertion order; its event is logged and its body's commands are
applied.  Removals are deferred, so iteration over the frozen list is
stable (spec 4.4 "This guarantees stable iteration inside a single
dispatch"). -/
def dispatchList (mk : Nat → Event) (beh : Beh) : List Nat → Emu → Emu
  | [], e => e
  | id :: rest, e =>
      dispatchList mk beh rest (applyCmds (beh id) (addEvent (mk id) e))

/-- Modelled from the spec: dispatch of one event class; the id list is
read once at dispatch start. -/
def dispatch (c : HookClass) (mk : Nat → Event) (beh : Beh) (e : Emu) : Emu :=
  dispatchList mk beh (e.fab.hooks c) e

/-- Which of the two regions serves an access. -/
inductive Which
  | flash
  | ram
deriving DecidableEq, Repr

/-- Modelled from the spec: `validate_address` (emulator.h line 278) lifted
to a byte range: the access is served by flash if fully inside the flash
window, else by RAM if fully inside the RAM window, else it is out of
bounds (spec 4.1 / 7: OUT_OF_BOUNDS iff any byte of the access lies
outside the two configured regions). -/
def validate_access (e : Emu) (addr len : Nat) : Option Which :=
  if e.flash.contains_range addr len then some .flash
  else if e.ram.contains_range addr len then some .ram
  else none

/-- Hook-free little-endian read of `len` bytes, `none` if out of bounds. -/
def readMemRaw (e : Emu) (addr len : Nat) : Option Nat :=
  match validate_access e addr len with
  | some .flash => some (e.flash.readLE addr len)
  | some .ram => some (e.ram.readLE addr len)
  | none => none

/-- Store a byte list into the selected region. -/
def storeAt (w : Which) (addr : Nat) (bs : List Nat) (e : Emu) : Emu :=
  match w with
  | .flash => { e with flash := e.flash.writeBytes addr bs }
  | .ram => { e with ram := e.ram.writeBytes addr bs }

/-- Modelled from the spec: `set_exclusive_monitors` (emulator.h line 297):
LDREX sets the exclusive address to the aligned base of the reservation
granule (spec 4.3 "Exclusive monitor"). -/
def set_exclusive_monitors (addr align : Nat) (c : CPU_State) : CPU_State :=
  { c with exclusive_address := addr - addr % align }

/-- Modelled from the spec: `exclusive_monitors_pass` (emulator.h line
298): STREX succeeds iff the monitor address still matches the reservation
(spec 4.3). -/
def exclusive_monitors_pass (addr align : Nat) (c : CPU_State) : Bool :=
  decide (c.exclusive_address = addr - addr % align)

/-- Clear the exclusive monitor (successful STREX, CLREX). -/
def clear_exclusive_monitors (c : CPU_State) : CPU_State :=
  { c with exclusive_address := EXCLUSIVE_NONE }

/-- Modelled from the spec: any non-exclusive store that writes within the
reserved 4-byte granule clears the monitor (spec 4.3). -/
def clearMonitorOnStore (addr bytes : Nat) (c : CPU_State) : CPU_State :=
  if c.exclusive_address < addr + bytes ∧ addr < c.exclusive_address + 4 then
    { c with exclusive_address := EXCLUSIVE_NONE }
  else c

/-- Modelled from the spec: `read_memory_internal` (emulator.h line 281):
validate the address (else OUT_OF_BOUNDS), fire the before-read hooks with
the current value, re-read (hooks may alter memory in flight), fire the
after-read hooks, return the value (spec 4.3 "Memory access fabric"). -/
def read_memory_internal (beh : Beh) (addr bytes : Nat) (e : Emu) :
    Except ReturnCode (Nat × Emu) :=
  match readMemRaw e addr bytes with
  | none => .error .OUT_OF_BOUNDS
  | some v =>
    let e1 := dispatch .beforeMemRead
      (fun id => .memAccess .beforeMemRead id addr bytes v) beh e
    match readMemRaw e1 addr bytes with
    | none => .error .OUT_OF_BOUNDS
    | some v2 =>
      let e2 := dispatch .afterMemRead
        (fun id => .memAccess .afterMemRead id addr bytes v2) beh e1
      .ok (v2, e2)

/-- Modelled from the spec: `write_memory_internal` (emulator.h line 282):
validate the address (else OUT_OF_BOUNDS), fire the before-write hooks with
the value to be written, perform the little-endian store, clear the monitor
on a store into the reserved granule, fire the after-write hooks
(spec 4.3). -/
def write_memory_internal (beh : Beh) (addr value bytes : Nat) (e : Emu) :
    Except ReturnCode Emu :=
  match validate_access e addr bytes with
  | none => .error .OUT_OF_BOUNDS
  | some w =>
    let e1 := dispatch .beforeMemWrite
      (fun id => .memAccess .beforeMemWrite id addr bytes (u32 value)) beh e
    let e2 := storeAt w addr (leBytes (u32 value) bytes) e1
    let e3 := { e2 with cpu := clearMonitorOnStore addr bytes e2.cpu }
    let e4 := dispatch .afterMemWrite
      (fun id => .memAccess .afterMemWrite id addr bytes (u32 value)) beh e3
    .ok e4

/-- Modelled from the spec: `read_register_internal` (emulator.h line 284):
an operand that names PC reads as the current instruction address + 4 with
bit 0 masked (spec 4.3 "Reads of PC"); the before/after register-read hooks
fire around the access. -/
def read_register_internal (beh : Beh) (r : Fin 16) (e : Emu) : Nat × Emu :=
  let v := if r = pcReg then u32 (e.cpu.registers pcReg + 4) &&& 4294967294
           else e.cpu.registers r
  let e1 := dispatch .beforeRegRead
    (fun id => .regAccess .beforeRegRead id r v) beh e
  let e2 := dispatch .afterRegRead
    (fun id => .regAccess .afterRegRead id r v) beh e1
  (v, e2)

/-- Modelled from the spec: `write_register_internal` (emulator.h line
285): the before/after register-write hooks fire around the store of the
truncated value. -/
def write_register_internal (beh : Beh) (r : Fin 16) (v : Nat) (e : Emu) : Emu :=
  let e1 := dispatch .beforeRegWrite
    (fun id => .regAccess .beforeRegWrite id r (u32 v)) beh e
  let e2 := { e1 with
    cpu := { e1.cpu with
      registers := Function.update e1.cpu.registers r (u32 v) } }
  dispatch .afterRegWrite
    (fun id => .regAccess .afterRegWrite id r (u32 v)) beh e2

/-- Modelled from the spec: `branch_write_PC` (emulator.h line 293): clear
bit 0, set PC = addr & ~1 (spec 4.3 "PC writes"); a branch taken inside an
IT block clears the remaining IT state. -/
def branch_write_PC (addr : Nat) (e : Emu) : Emu :=
  { e with
    cpu := { e.cpu with
      registers := Function.update e.cpu.registers pcReg (u32 addr &&& 4294967294),
      psr := { e.cpu.psr with it_state := 0 } } }

/-- Modelled from the spec: `bx_write_PC` (emulator.h line 294): if bit 0
of the target is 1, stay in Thumb and set PC = addr & ~1; if bit 0 is 0
this is an attempt to leave Thumb state, a fault on M-profile, raising
UNSUPPORTED (spec 4.3). -/
def bx_write_PC (addr : Nat) (e : Emu) : Except ReturnCode Emu :=
  if addr % 2 = 1 then .ok (branch_write_PC addr e)
  else .error .UNSUPPORTED

/-- Modelled from the spec: `blx_write_PC` (emulator.h line 295): same as
`bx_write_PC`, additionally storing the return address + 1 (Thumb bit) in
LR before the jump (spec 4.3); the BLX register form is a 16-bit encoding,
so the return address is the instruction address + 2. -/
def blx_write_PC (addr : Nat) (e : Emu) : Except ReturnCode Emu :=
  let lrv := u32 (e.cpu.registers pcReg + 2 + 1)
  bx_write_PC addr
    { e with cpu := { e.cpu with
        registers := Function.update e.cpu.registers lrReg lrv } }

/-- Signed reading of a u32 value. -/
def toSigned (n : Nat) : Int :=
  if n < 2147483648 then (n : Int) else (n : Int) - (U32 : Int)

/-- Modelled from the spec: the ARM `AddWithCarry` primitive (spec 4.3
"Flag update discipline" and spec 8): returns the 32-bit result, the
unsigned carry-out and the signed overflow. -/
def AddWithCarry (a b : Nat) (carry_in : Bool) : Nat × Bool × Bool :=
  let usum := u32 a + u32 b + (if carry_in then 1 else 0)
  let result := usum % U32
  let carry_out := decide (U32 ≤ usum)
  let ssum := toSigned (u32 a) + toSigned (u32 b) + (if carry_in then 1 else 0)
  (result, carry_out, decide (toSigned result ≠ ssum))

/-- Set N and Z from a 32-bit result (logical operations). -/
def setNZ (v : Nat) (c : CPU_State) : CPU_State :=
  { c with psr := { c.psr with
      N := decide (2147483648 ≤ v), Z := decide (v = 0) } }

/-- Set N, Z, C, V from an `AddWithCarry` outcome (arithmetic operations). -/
def setNZCV (v : Nat) (co ov : Bool) (c : CPU_State) : CPU_State :=
  { c with psr := { c.psr with
      N := decide (2147483648 ≤ v), Z := decide (v = 0), C := co, V := ov } }

/-- Modelled from the spec: a result write to a destination register: a
write that names PC is a PC write and goes through `branch_write_PC`
(spec 4.3); the returned flag records that the instruction itself wrote
PC. -/
def writeRd (beh : Beh) (rd : Fin 16) (v : Nat) (e : Emu) : Emu × Bool :=
  if rd = pcReg then (branch_write_PC v e, true)
  else (write_register_internal beh rd v e, false)

/-- Modelled from the spec: `execute` (emulator.h line 289): the semantic
effect of one decoded instruction (spec 4.3), returning the updated state
and whether the instruction itself wrote PC, or the fault that occurred. -/
def execute (beh : Beh) (i : Instruction) (e : Emu) :
    Except ReturnCode (Emu × Bool) :=
  match i.opcode with
  | .NOP => .ok (e, false)
  | .UNDEF => .error .UNDEFINED
  | .MOV_imm =>
      let v := u32 i.imm
      let p := writeRd beh i.Rd v e
      if i.setflags && !p.2 then .ok ({ p.1 with cpu := setNZ v p.1.cpu }, false)
      else .ok p
  | .ADD_reg =>
      let a := read_register_internal beh i.Rn e
      let b := read_register_internal beh i.Rm a.2
      let r := AddWithCarry a.1 b.1 false
      let p := writeRd beh i.Rd r.1 b.2
      if i.setflags && !p.2 then
        .ok ({ p.1 with cpu := setNZCV r.1 r.2.1 r.2.2 p.1.cpu }, false)
      else .ok p
  | .B => .ok (branch_write_PC i.imm e, true)
  | .BX =>
      let a := read_register_internal beh i.Rm e
      (bx_write_PC a.1 a.2).map (fun e2 => (e2, true))
  | .BLX =>
      let a := read_register_internal beh i.Rm e
      (blx_write_PC a.1 a.2).map (fun e2 => (e2, true))
  | .LDR_imm =>
      let a := read_register_internal beh i.Rn e
      let addr := u32 (a.1 + i.imm)
      if addr % 4 ≠ 0 then .error .UNALIGNED
      else
        match read_memory_internal beh addr 4 a.2 with
        | .error rc => .error rc
        | .ok (v, e2) => .ok (writeRd beh i.Rt v e2)
  | .STR_imm =>
      let a := read_register_internal beh i.Rn e
      let b := read_register_internal beh i.Rt a.2
      let addr := u32 (a.1 + i.imm)
      if addr % 4 ≠ 0 then .error .UNALIGNED
      else (write_memory_internal beh addr b.1 4 b.2).map (fun e2 => (e2, false))
  | .LDREX =>
      let a := read_register_internal beh i.Rn e
      let addr := u32 (a.1 + i.imm)
      if addr % 4 ≠ 0 then .error .UNALIGNED
      else
        let e1 := { a.2 with cpu := set_exclusive_monitors addr 4 a.2.cpu }
        match read_memory_internal beh addr 4 e1 with
        | .error rc => .error rc
        | .ok (v, e2) => .ok (writeRd beh i.Rt v e2)
  | .STREX =>
      let a := read_register_internal beh i.Rn e
      let b := read_register_internal beh i.Rt a.2
      let addr := u32 (a.1 + i.imm)
      if addr % 4 ≠ 0 then .error .UNALIGNED
      else if exclusive_monitors_pass addr 4 b.2.cpu then
        match write_memory_internal beh addr b.1 4 b.2 with
        | .error rc => .error rc
        | .ok e2 =>
          let e3 := { e2 with cpu := clear_exclusive_monitors e2.cpu }
          .ok (writeRd beh i.Rd 0 e3)
      else .ok (writeRd beh i.Rd 1 b.2)
  | .CLREX => .ok ({ e with cpu := clear_exclusive_monitors e.cpu }, false)
  | .IT_op =>
      .ok ({ e with cpu := { e.cpu with
        psr := { e.cpu.psr with it_state := i.imm % 256 } } }, false)

/-- A halfword whose top 5 bits are 11101, 11110 or 11111 starts a 32-bit
Thumb-2 encoding (spec 4.2); the predicted instruction size in bytes. -/
def predicted_size (hw1 : Nat) : Nat :=
  if 29 ≤ hw1 / 2048 then 4 else 2

/-- Currently inside an IT block: ITSTATE bits 3:0 are not all zero
(spec 4.3 "IT-block handling"). -/
def in_IT_block_state (s : Nat) : Bool :=
  decide (s % 16 ≠ 0)

/-- At the last instruction of an IT block: ITSTATE bits 3:0 = 1000. -/
def last_in_IT_block_state (s : Nat) : Bool :=
  decide (s % 16 = 8)

/-- Modelled from the spec: the IT-state advance: shift the mask lanes left
by one; empty when no lane remains (ARM ITAdvance, spec 4.3: "then
it_state is shifted"). -/
def itAdvance (s : Nat) : Nat :=
  if s % 8 = 0 then 0 else (s / 32 * 32 + s % 32 * 2 % 32) % 256

/-- Modelled from the spec: `pop_IT_condition` (emulator.h line 287): while
inside an IT block the per-instruction condition is read from the top
nibble of it_state and the state is shifted; outside, the instruction's own
condition is used and the state is unchanged (spec 4.3). -/
def pop_IT_condition (i : Instruction) (s : Nat) : Nat × Nat :=
  if in_IT_block_state s then (s / 16, itAdvance s) else (i.condition, s)

/-- Modelled from the spec: `evaluate_condition` (emulator.h line 291): the
standard ARM 4-bit condition table over N, Z, C, V; NV (15) is treated as
AL (spec 4.3 "Condition codes"). -/
def evaluate_condition (cond : Nat) (p : PSRState) : Bool :=
  match cond with
  | 0 => p.Z
  | 1 => !p.Z
  | 2 => p.C
  | 3 => !p.C
  | 4 => p.N
  | 5 => !p.N
  | 6 => p.V
  | 7 => !p.V
  | 8 => p.C && !p.Z
  | 9 => !(p.C && !p.Z)
  | 10 => p.N == p.V
  | 11 => p.N != p.V
  | 12 => !p.Z && (p.N == p.V)
  | 13 => !(!p.Z && (p.N == p.V))
  | _ => true

/-- Modelled from the spec: `clock_cpu` (emulator.h line 279): the u32
`time` counter and the per-call `m_emulated_time` counter each increase by
one (spec 4.3 step 10). -/
def clock_cpu (e : Emu) : Emu :=
  { e with
    cpu := { e.cpu with time := u32 (e.cpu.time + 1) },
    emulated_time := u32 (e.emulated_time + 1) }

/-- Deferred hook cleanup at the end of the step (spec 4.3 step 8). -/
def stepCleanup (e : Emu) : Emu :=
  if e.fab.cleanup_requested then { e with fab := cleanup_hooks e.fab } else e

/-- PC advance by the encoding width when the instruction did not itself
write PC (spec 4.3 step 9). -/
def advancePC (instrAddr isz : Nat) (e : Emu) : Emu :=
  { e with cpu := { e.cpu with
      registers := Function.update e.cpu.registers pcReg (u32 (instrAddr + isz)) } }

/-- Steps 8-10 of one engine step: deferred cleanup, PC advance, time. -/
def finishStep (pcWritten : Bool) (instrAddr isz : Nat) (e : Emu) : Emu :=
  let e1 := stepCleanup e
  let e2 := if pcWritten then e1 else advancePC instrAddr isz e1
  clock_cpu e2

/-- Modelled from the spec: one step of the execution engine (spec 4.3
steps 1-10): peek the first halfword to predict the size, fire the
pre-fetch hooks, fetch the instruction bytes through the hook-free fetch
path (fetch is distinct from data access), decode (the decoder is passed
as a parameter: it is referentially transparent in the fetched bits), fire
the decoded hooks, pop the IT condition, evaluate it; on pass execute the
semantics, on failure skip them; fire the executed hooks, run the deferred
cleanup, advance PC by the encoding width unless the instruction wrote PC,
and increment time. -/
def step (beh : Beh) (dec : Nat → Instruction) (e : Emu) : Except ReturnCode Emu :=
  let pc := e.cpu.registers pcReg
  match readMemRaw e pc 2 with
  | none => .error .OUT_OF_BOUNDS
  | some hw1 =>
    let isz := predicted_size hw1
    let e1 := dispatch .onFetch (fun id => .fetchEv id pc isz) beh e
    match readMemRaw e1 pc isz with
    | none => .error .OUT_OF_BOUNDS
    | some bits =>
      let instr := dec bits
      let e2 := dispatch .onDecode (fun id => .decodedEv id instr) beh e1
      let pcond := pop_IT_condition instr e2.cpu.psr.it_state
      let e3 := { e2 with cpu := { e2.cpu with
        psr := { e2.cpu.psr with it_state := pcond.2 } } }
      if evaluate_condition pcond.1 e3.cpu.psr then
        match execute beh instr e3 with
        | .error rc => .error rc
        | .ok (e4, pcW) =>
          let e5 := dispatch .onExecute (fun id => .executedEv id instr) beh e4
          .ok (finishStep pcW pc isz e5)
      else
        let e5 := dispatch .onExecute (fun id => .executedEv id instr) beh e3
        .ok (finishStep false pc isz e5)

/-- Modelled from the spec: the run loop (spec 4.3 "Termination"): exit on
`max_instructions` executed, on reaching the optional end address, on a
stop request observed at the top of the step, or on a fault, which
terminates the call with its code and leaves the state at the faulting
instruction. -/
def emulateFuel (beh : Beh) (dec : Nat → Instruction) (endAddr : Option Nat) :
    Nat → Emu → ReturnCode × Emu
  | 0, e => (.MAX_INSTRUCTIONS_REACHED, e)
  | fuel + 1, e =>
    if e.running = false then (.STOPPED, e)
    else if endAddr = some (e.cpu.registers pcReg) then (.END_ADDRESS_REACHED, e)
    else
      match step beh dec e with
      | .error rc => (rc, e)
      | .ok e2 => emulateFuel beh dec endAddr fuel e2

/-- Modelled from the spec: `emulate` (emulator.h lines 103-104), both
overloads at once through the optional end address: the per-call counter
`m_emulated_time` is reset, the running flag raised, then the run loop. -/
def emulate (beh : Beh) (dec : Nat → Instruction) (endAddr : Option Nat)
    (max_instructions : Nat) (e : Emu) : ReturnCode × Emu :=
  emulateFuel beh dec endAddr max_instructions
    { e with running := true, emulated_time := 0 }

/-- `read_register` (emulator.h line 89): hook-free register read. -/
def read_register (r : Fin 16) (e : Emu) : Nat × Emu :=
  (e.cpu.registers r, e)

/-- `write_register` (emulator.h line 90): hook-free register write. -/
def write_register (r : Fin 16) (v : Nat) (e : Emu) : Emu :=
  { e with cpu := { e.cpu with
      registers := Function.update e.cpu.registers r (u32 v) } }

/-- `read_memory` (emulator.h line 96): hook-free memory read. -/
def read_memory (addr len : Nat) (e : Emu) : Option Nat × Emu :=
  (readMemRaw e addr len, e)

/-- `write_memory` (emulator.h line 97): hook-free memory write. -/
def write_memory (addr : Nat) (bs : List Nat) (e : Emu) : Emu :=
  match validate_access e addr bs.length with
  | none => e
  | some w => storeAt w addr bs e

/-- `get_cpu_state` (emulator.h line 140): the current CPU state. -/
def get_cpu_state (e : Emu) : CPU_State := e.cpu

/-- `set_cpu_state` (emulator.h line 145): restore a CPU state snapshot. -/
def set_cpu_state (s : CPU_State) (e : Emu) : Emu := { e with cpu := s }

/-- `get_time` (emulator.h line 119). -/
def get_time (e : Emu) : Nat := e.cpu.time

/-- `get_emulated_time` (emulator.h line 124). -/
def get_emulated_time (e : Emu) : Nat := e.emulated_time

/-- `stop_emulation` (emulator.h line 109). -/
def stop_emulation (e : Emu) : Emu := { e with running := false }

/-- An `add_XY_hook` registration (emulator.h lines 165-223, all shapes at
once): returns the fresh id and the new state. -/
def add_hook (c : HookClass) (e : Emu) : Nat × Emu :=
  ((addHookF c e.fab).1, { e with fab := (addHookF c e.fab).2 })

/-- `remove_hook` (emulator.h line 228), called outside a dispatch:
immediate removal through `cleanup_hook`. -/
def remove_hook (i : Nat) (e : Emu) : Emu :=
  { e with fab := cleanup_hook i e.fab }

/-- `clear_hooks` (emulator.h line 233), called outside a dispatch. -/
def clear_hooksE (e : Emu) : Emu :=
  { e with fab := resetHooks e.fab }

/-- The public operations an external driver may perform on the emulator
between and around `emulate` calls; a step of the run loop is one operation
(a failing step leaves the state unchanged, as the fault terminates the
`emulate` call there). -/
inductive EmuOp
  | stepOp (beh : Beh) (dec : Nat → Instruction)
  | addOp (c : HookClass)
  | removeOp (i : Nat)
  | clearOp
  | writeRegOp (r : Fin 16) (v : Nat)
  | writeMemOp (addr : Nat) (bs : List Nat)
  | setStateOp (s : CPU_State)
  | stopOp

/-- The state effect of one public operation. -/
def applyEmuOp (op : EmuOp) (e : Emu) : Emu :=
  match op with
  | .stepOp beh dec =>
    match step beh dec e with
    | .error _ => e
    | .ok e2 => e2
  | .addOp c => (add_hook c e).2
  | .removeOp i => remove_hook i e
  | .clearOp => clear_hooksE e
  | .writeRegOp r v => write_register r v e
  | .writeMemOp addr bs => write_memory addr bs e
  | .setStateOp s => set_cpu_state s e
  | .stopOp => stop_emulation e

/-- A sequence of public operations, applied left to right. -/
def runOps : List EmuOp → Emu → Emu
  | [], e => e
  | op :: ops, e => runOps ops (applyEmuOp op e)

/-- A freshly constructed hook fabric: empty lists, id counter at 1 (0 is
reserved as invalid). -/
def initialFabric : HookFabric :=
  { hooks := fun _ => [], remove_hooks := [], next_hook_id := 1,
    cleanup_requested := false, issued := [] }

/-- A freshly constructed CPU state. -/
def initialCPU : CPU_State :=
  { registers := fun _ => 0,
    psr := { N := false, Z := false, C := false, V := false, Q := false, it_state := 0 },
    exclusive_address := EXCLUSIVE_NONE,
    CCR := 0, PRIMASK := 0, FAULTMASK := 0, BASEPRI := 0, CONTROL := 0, time := 0 }

/-- A freshly constructed emulator with unconfigured (empty) regions. -/
def initialEmu : Emu :=
  { cpu := initialCPU,
    flash := { offset := 0, size := 0, data := [] },
    ram := { offset := 0, size := 0, data := [] },
    fab := initialFabric, emulated_time := 0, running := false, log := [] }

/-- Fabric well-formedness: the id counter is non-zero (ids start at 1) and
every id in a hook list is non-zero and below the id counter. -/
def WfBounds (f : HookFabric) : Prop :=
  1 ≤ f.next_hook_id ∧ ∀ c ∈ allClasses, ∀ j ∈ f.hooks c, 1 ≤ j ∧ j < f.next_hook_id

/-- Hook id `i` is gone from the fabric: the fabric is well-formed, `i` is
below the id counter (so no later registration can reuse it) and `i` is in
no hook list. -/
def FabGone (i : Nat) (f : HookFabric) : Prop :=
  WfBounds f ∧ i < f.next_hook_id ∧ ∀ cl : HookClass, i ∉ f.hooks cl

/-- Every log entry beyond the baseline `base` was fired by a hook other
than `i` (propositional form of `noNewFiresB`). -/
def NoNewFires (i : Nat) (base : List Event) (e : Emu) : Prop :=
  ∀ ev ∈ e.log, ev ∈ base ∨ Event.hookId ev ≠ i

/-- The invariant carried across steps once hook `i` has been removed. -/
def StepInv (i : Nat) (base : List Event) (e : Emu) : Prop :=
  FabGone i e.fab ∧ NoNewFires i base e

/-- The invariant carried through the dispatches of one step when hook `i`
removes itself from inside its own body: once an event of hook `i` has been
logged beyond the baseline, `i` is pending removal and cleanup has been
requested. -/
def PendInv (i : Nat) (base : List Event) (e : Emu) : Prop :=
  WfBounds e.fab ∧ i < e.fab.next_hook_id ∧
    ((∃ ev ∈ e.log, ev ∉ base ∧ Event.hookId ev = i) →
      i ∈ e.fab.remove_hooks ∧ e.fab.cleanup_requested = true)

/-- Issuance well-formedness: every id ever returned by a registration is
non-zero and below the id counter. -/
def WfIssued (f : HookFabric) : Prop :=
  (∀ j ∈ f.issued, 1 ≤ j ∧ j < f.next_hook_id) ∧ 1 ≤ f.next_hook_id

/-- Every log entry beyond the baseline `base` was fired by a hook other
than `i`. -/
def noNewFiresB (i : Nat) (base : List Event) (e : Emu) : Bool :=
  e.log.all (fun ev => decide (ev ∈ base) || decide (Event.hookId ev ≠ i))

/-- A bundle of closure properties of a predicate `P` over the primitive
state transitions of one engine step: each hook dispatch (by payload
shape), and any rebuild of the state that keeps the hook fabric and the
event log. Used to carry invariants through `execute` and `step`. -/
structure PresHyp (beh : Beh) (P : Emu → Prop) : Prop where
  dF : ∀ (a isz : Nat) (e : Emu), P e →
    P (dispatch .onFetch (fun id => Event.fetchEv id a isz) beh e)
  dD : ∀ (ins : Instruction) (e : Emu), P e →
    P (dispatch .onDecode (fun id => Event.decodedEv id ins) beh e)
  dE : ∀ (ins : Instruction) (e : Emu), P e →
    P (dispatch .onExecute (fun id => Event.executedEv id ins) beh e)
  dM : ∀ (c : HookClass) (a sz v : Nat) (e : Emu), P e →
    P (dispatch c (fun id => Event.memAccess c id a sz v) beh e)
  dR : ∀ (c : HookClass) (r : Fin 16) (v : Nat) (e : Emu), P e →
    P (dispatch c (fun id => Event.regAccess c id r v) beh e)
  state : ∀ (e : Emu) (c : CPU_State) (fl rm : MemoryRegion) (t : Nat) (b : Bool),
    P e → P (Emu.mk c fl rm e.fab t b e.log)

/-- Passive hook behaviour: callbacks that issue no fabric command. -/
def passiveBeh : Beh := fun _ => []

/-- A decoder stub classifying everything as NOP (condition AL). -/
def decNOP : Nat → Instruction := fun _ => { opcode := .NOP }

/-- A decoder stub classifying everything as a conditional (EQ) MOV. -/
def decEQMOV : Nat → Instruction :=
  fun _ => { opcode := .MOV_imm, condition := 0, Rd := 1, imm := 5 }

/-- A small configured flash region at offset 0. -/
def flashW : MemoryRegion := { offset := 0, size := 8, data := [0, 0, 0, 0, 0, 0, 0, 0] }

/-- A small configured RAM region at offset 4096. -/
def ramW : MemoryRegion := { offset := 4096, size := 16, data := List.replicate 16 0 }

/-- A concrete configured emulator. -/
def emuW : Emu := { initialEmu with flash := flashW, ram := ramW }

/-- The state after a step, keeping the old state on a fault. -/
def stepOut (beh : Beh) (dec : Nat → Instruction) (e : Emu) : Emu :=
  match step beh dec e with
  | .ok e2 => e2
  | .error _ => e

/-- The state after an execute, keeping the old state on a fault. -/
def execOut (beh : Beh) (i : Instruction) (e : Emu) : Emu × Bool :=
  match execute beh i e with
  | .ok p => p
  | .error _ => (e, false)

/-- A STREX instruction: address register R1, value register R2, status
register R3. -/
def insSTREX : Instruction := { opcode := .STREX, Rn := 1, Rt := 2, Rd := 3 }

/-- A concrete emulator whose monitor holds a reservation at 4096 and whose
R1 points there, R2 = 42. -/
def emuSTREXpass : Emu :=
  { emuW with cpu := { emuW.cpu with
      registers := Function.update (Function.update emuW.cpu.registers 1 4096) 2 42,
      exclusive_address := 4096 } }

/-- The same emulator with no reservation. -/
def emuSTREXfail : Emu :=
  { emuSTREXpass with cpu := { emuSTREXpass.cpu with
      exclusive_address := EXCLUSIVE_NONE } }

/-- A concrete emulator whose PC points outside both configured regions. -/
def emuBadPC : Emu :=
  { emuW with cpu := { emuW.cpu with
      registers := Function.update emuW.cpu.registers pcReg 9000 } }

/-- A fabric holding one executed-hook registration with id 1. -/
def fabW : HookFabric :=
  { hooks := fun c => if c = HookClass.onExecute then [1] else [],
    remove_hooks := [], next_hook_id := 2, cleanup_requested := false,
    issued := [1] }

/-- A concrete emulator with hook 1 registered on the executed event. -/
def emuHook : Emu := { emuW with fab := fabW }

/-- A behaviour in which hook 1 removes itself from inside its own body. -/
def behSelfRemove : Beh := fun j => if j = 1 then [.removeHook 1] else []

/-
Theorems.  First the general frame lemmas about the hook fabric and the
internal access fabric, then one theorem (plus witness) per claim.
-/

theorem mem_allClasses (c : HookClass) : c ∈ allClasses := by
  cases c <;> simp [allClasses]

theorem addEvent_cpu (ev : Event) (e : Emu) : (addEvent ev e).cpu = e.cpu := rfl

theorem addEvent_flash (ev : Event) (e : Emu) : (addEvent ev e).flash = e.flash := rfl

theorem addEvent_ram (ev : Event) (e : Emu) : (addEvent ev e).ram = e.ram := rfl

theorem addEvent_emulated_time (ev : Event) (e : Emu) :
    (addEvent ev e).emulated_time = e.emulated_time := rfl

theorem addEvent_fab (ev : Event) (e : Emu) : (addEvent ev e).fab = e.fab := rfl

theorem addEvent_log (ev : Event) (e : Emu) : (addEvent ev e).log = e.log ++ [ev] := rfl

theorem applyCmd_cpu (c : Cmd) (e : Emu) : (applyCmd c e).cpu = e.cpu := by
  cases c <;> rfl

theorem applyCmd_flash (c : Cmd) (e : Emu) : (applyCmd c e).flash = e.flash := by
  cases c <;> rfl

theorem applyCmd_ram (c : Cmd) (e : Emu) : (applyCmd c e).ram = e.ram := by
  cases c <;> rfl

theorem applyCmd_emulated_time (c : Cmd) (e : Emu) :
    (applyCmd c e).emulated_time = e.emulated_time := by
  cases c <;> rfl

theorem applyCmd_log (c : Cmd) (e : Emu) : (applyCmd c e).log = e.log := by
  cases c <;> rfl

theorem applyCmds_cpu : ∀ (cmds : List Cmd) (e : Emu), (applyCmds cmds e).cpu = e.cpu
  | [], _ => rfl
  | c :: cs, e => by rw [applyCmds, applyCmds_cpu cs, applyCmd_cpu]

theorem applyCmds_flash : ∀ (cmds : List Cmd) (e : Emu), (applyCmds cmds e).flash = e.flash
  | [], _ => rfl
  | c :: cs, e => by rw [applyCmds, applyCmds_flash cs, applyCmd_flash]

theorem applyCmds_ram : ∀ (cmds : List Cmd) (e : Emu), (applyCmds cmds e).ram = e.ram
  | [], _ => rfl
  | c :: cs, e => by rw [applyCmds, applyCmds_ram cs, applyCmd_ram]

theorem applyCmds_emulated_time :
    ∀ (cmds : List Cmd) (e : Emu), (applyCmds cmds e).emulated_time = e.emulated_time
  | [], _ => rfl
  | c :: cs, e => by rw [applyCmds, applyCmds_emulated_time cs, applyCmd_emulated_time]

theorem applyCmds_log : ∀ (cmds : List Cmd) (e : Emu), (applyCmds cmds e).log = e.log
  | [], _ => rfl
  | c :: cs, e => by rw [applyCmds, applyCmds_log cs, applyCmd_log]

theorem dispatchList_cpu (mk : Nat → Event) (beh : Beh) :
    ∀ (l : List Nat) (e : Emu), (dispatchList mk beh l e).cpu = e.cpu
  | [], _ => rfl
  | id :: rest, e => by
      rw [dispatchList, dispatchList_cpu mk beh rest, applyCmds_cpu, addEvent_cpu]

theorem dispatchList_flash (mk : Nat → Event) (beh : Beh) :
    ∀ (l : List Nat) (e : Emu), (dispatchList mk beh l e).flash = e.flash
  | [], _ => rfl
  | id :: rest, e => by
      rw [dispatchList, dispatchList_flash mk beh rest, applyCmds_flash, addEvent_flash]

theorem dispatchList_ram (mk : Nat → Event) (beh : Beh) :
    ∀ (l : List Nat) (e : Emu), (dispatchList mk beh l e).ram = e.ram
  | [], _ => rfl
  | id :: rest, e => by
      rw [dispatchList, dispatchList_ram mk beh rest, applyCmds_ram, addEvent_ram]

theorem dispatchList_emulated_time (mk : Nat → Event) (beh : Beh) :
    ∀ (l : List Nat) (e : Emu), (dispatchList mk beh l e).emulated_time = e.emulated_time
  | [], _ => rfl
  | id :: rest, e => by
      rw [dispatchList, dispatchList_emulated_time mk beh rest, applyCmds_emulated_time,
        addEvent_emulated_time]

theorem dispatch_cpu (c : HookClass) (mk : Nat → Event) (beh : Beh) (e : Emu) :
    (dispatch c mk beh e).cpu = e.cpu := dispatchList_cpu mk beh _ e

theorem dispatch_flash (c : HookClass) (mk : Nat → Event) (beh : Beh) (e : Emu) :
    (dispatch c mk beh e).flash = e.flash := dispatchList_flash mk beh _ e

theorem dispatch_ram (c : HookClass) (mk : Nat → Event) (beh : Beh) (e : Emu) :
    (dispatch c mk beh e).ram = e.ram := dispatchList_ram mk beh _ e

theorem dispatch_emulated_time (c : HookClass) (mk : Nat → Event) (beh : Beh) (e : Emu) :
    (dispatch c mk beh e).emulated_time = e.emulated_time :=
  dispatchList_emulated_time mk beh _ e

theorem readMemRaw_eq_of {e1 e2 : Emu} (h1 : e1.flash = e2.flash) (h2 : e1.ram = e2.ram)
    (a l : Nat) : readMemRaw e1 a l = readMemRaw e2 a l := by
  unfold readMemRaw validate_access
  rw [h1, h2]

theorem read_register_internal_fst (beh : Beh) (r : Fin 16) (e : Emu) :
    (read_register_internal beh r e).1 =
      if r = pcReg then u32 (e.cpu.registers pcReg + 4) &&& 4294967294
      else e.cpu.registers r := rfl

theorem read_register_internal_cpu (beh : Beh) (r : Fin 16) (e : Emu) :
    (read_register_internal beh r e).2.cpu = e.cpu := by
  unfold read_register_internal
  rw [dispatch_cpu, dispatch_cpu]

theorem read_register_internal_flash (beh : Beh) (r : Fin 16) (e : Emu) :
    (read_register_internal beh r e).2.flash = e.flash := by
  unfold read_register_internal
  rw [dispatch_flash, dispatch_flash]

theorem read_register_internal_ram (beh : Beh) (r : Fin 16) (e : Emu) :
    (read_register_internal beh r e).2.ram = e.ram := by
  unfold read_register_internal
  rw [dispatch_ram, dispatch_ram]

theorem read_register_internal_emulated_time (beh : Beh) (r : Fin 16) (e : Emu) :
    (read_register_internal beh r e).2.emulated_time = e.emulated_time := by
  unfold read_register_internal
  rw [dispatch_emulated_time, dispatch_emulated_time]

theorem write_register_internal_cpu (beh : Beh) (r : Fin 16) (v : Nat) (e : Emu) :
    (write_register_internal beh r v e).cpu =
      { e.cpu with registers := Function.update e.cpu.registers r (u32 v) } := by
  unfold write_register_internal
  rw [dispatch_cpu]
  show ({ dispatch .beforeRegWrite _ beh e with
    cpu := { (dispatch .beforeRegWrite _ beh e).cpu with
      registers := Function.update (dispatch .beforeRegWrite _ beh e).cpu.registers r (u32 v) } }).cpu = _
  rw [dispatch_cpu]

theorem write_register_internal_flash (beh : Beh) (r : Fin 16) (v : Nat) (e : Emu) :
    (write_register_internal beh r v e).flash = e.flash := by
  unfold write_register_internal
  rw [dispatch_flash]
  show ({ dispatch .beforeRegWrite _ beh e with
    cpu := { (dispatch .beforeRegWrite _ beh e).cpu with
      registers := Function.update (dispatch .beforeRegWrite _ beh e).cpu.registers r (u32 v) } }).flash = _
  rw [dispatch_flash]

theorem write_register_internal_ram (beh : Beh) (r : Fin 16) (v : Nat) (e : Emu) :
    (write_register_internal beh r v e).ram = e.ram := by
  unfold write_register_internal
  rw [dispatch_ram]
  show ({ dispatch .beforeRegWrite _ beh e with
    cpu := { (dispatch .beforeRegWrite _ beh e).cpu with
      registers := Function.update (dispatch .beforeRegWrite _ beh e).cpu.registers r (u32 v) } }).ram = _
  rw [dispatch_ram]

theorem write_register_internal_emulated_time (beh : Beh) (r : Fin 16) (v : Nat) (e : Emu) :
    (write_register_internal beh r v e).emulated_time = e.emulated_time := by
  unfold write_register_internal
  rw [dispatch_emulated_time]
  show ({ dispatch .beforeRegWrite _ beh e with
    cpu := { (dispatch .beforeRegWrite _ beh e).cpu with
      registers := Function.update (dispatch .beforeRegWrite _ beh e).cpu.registers r (u32 v) } }).emulated_time = _
  rw [dispatch_emulated_time]

theorem storeAt_cpu (w : Which) (addr : Nat) (bs : List Nat) (e : Emu) :
    (storeAt w addr bs e).cpu = e.cpu := by cases w <;> rfl

theorem storeAt_emulated_time (w : Which) (addr : Nat) (bs : List Nat) (e : Emu) :
    (storeAt w addr bs e).emulated_time = e.emulated_time := by cases w <;> rfl

theorem clearMonitorOnStore_registers (addr bytes : Nat) (c : CPU_State) :
    (clearMonitorOnStore addr bytes c).registers = c.registers := by
  unfold clearMonitorOnStore
  split <;> rfl

theorem clearMonitorOnStore_psr (addr bytes : Nat) (c : CPU_State) :
    (clearMonitorOnStore addr bytes c).psr = c.psr := by
  unfold clearMonitorOnStore
  split <;> rfl

theorem clearMonitorOnStore_time (addr bytes : Nat) (c : CPU_State) :
    (clearMonitorOnStore addr bytes c).time = c.time := by
  unfold clearMonitorOnStore
  split <;> rfl

theorem branch_write_PC_cpu (a : Nat) (e : Emu) :
    (branch_write_PC a e).cpu =
      { e.cpu with
        registers := Function.update e.cpu.registers pcReg (u32 a &&& 4294967294),
        psr := { e.cpu.psr with it_state := 0 } } := rfl

theorem branch_write_PC_flash (a : Nat) (e : Emu) :
    (branch_write_PC a e).flash = e.flash := rfl

theorem branch_write_PC_ram (a : Nat) (e : Emu) :
    (branch_write_PC a e).ram = e.ram := rfl

theorem branch_write_PC_emulated_time (a : Nat) (e : Emu) :
    (branch_write_PC a e).emulated_time = e.emulated_time := rfl

theorem storeAt_flash_congr {e1 e : Emu} (hf : e1.flash = e.flash)
    (w : Which) (a : Nat) (bs : List Nat) :
    (storeAt w a bs e1).flash = (storeAt w a bs e).flash := by
  cases w <;> simp [storeAt, hf]

theorem storeAt_ram_congr {e1 e : Emu} (hr : e1.ram = e.ram)
    (w : Which) (a : Nat) (bs : List Nat) :
    (storeAt w a bs e1).ram = (storeAt w a bs e).ram := by
  cases w <;> simp [storeAt, hr]

theorem read_memory_internal_ok_frame {beh : Beh} {a b : Nat} {e : Emu} {v : Nat} {e' : Emu}
    (h : read_memory_internal beh a b e = .ok (v, e')) :
    e'.cpu = e.cpu ∧ e'.flash = e.flash ∧ e'.ram = e.ram ∧
      e'.emulated_time = e.emulated_time := by
  simp only [read_memory_internal] at h
  cases h0 : readMemRaw e a b with
  | none => simp [h0] at h
  | some v0 =>
    simp only [h0] at h
    cases h1 : readMemRaw
        (dispatch .beforeMemRead (fun id => .memAccess .beforeMemRead id a b v0) beh e) a b with
    | none => simp [h1] at h
    | some v2 =>
      simp only [h1] at h
      injection h with h2
      injection h2 with hv he
      rw [← he, dispatch_cpu, dispatch_cpu, dispatch_flash, dispatch_flash,
        dispatch_ram, dispatch_ram, dispatch_emulated_time, dispatch_emulated_time]
      exact ⟨rfl, rfl, rfl, rfl⟩

theorem write_memory_internal_ok_frame {beh : Beh} {addr value bytes : Nat} {e : Emu}
    {e' : Emu} {w : Which} (h : write_memory_internal beh addr value bytes e = .ok e')
    (h0 : validate_access e addr bytes = some w) :
    e'.cpu.registers = e.cpu.registers ∧ e'.cpu.psr = e.cpu.psr ∧
      e'.cpu.time = e.cpu.time ∧ e'.emulated_time = e.emulated_time ∧
      e'.flash = (storeAt w addr (leBytes (u32 value) bytes) e).flash ∧
      e'.ram = (storeAt w addr (leBytes (u32 value) bytes) e).ram := by
  simp only [write_memory_internal, h0] at h
  injection h with h2
  rw [← h2]
  rw [dispatch_cpu, dispatch_flash, dispatch_ram, dispatch_emulated_time]
  refine ⟨?_, ?_, ?_, ?_, ?_, ?_⟩
  · show (clearMonitorOnStore addr bytes _).registers = _
    rw [clearMonitorOnStore_registers, storeAt_cpu, dispatch_cpu]
  · show (clearMonitorOnStore addr bytes _).psr = _
    rw [clearMonitorOnStore_psr, storeAt_cpu, dispatch_cpu]
  · show (clearMonitorOnStore addr bytes _).time = _
    rw [clearMonitorOnStore_time, storeAt_cpu, dispatch_cpu]
  · show (storeAt _ _ _ _).emulated_time = _
    rw [storeAt_emulated_time, dispatch_emulated_time]
  · show (storeAt _ _ _ _).flash = _
    exact storeAt_flash_congr (dispatch_flash _ _ _ _) w addr _
  · show (storeAt _ _ _ _).ram = _
    exact storeAt_ram_congr (dispatch_ram _ _ _ _) w addr _

theorem and_one_4294967294 : 4294967294 &&& 1 = 0 := by decide

theorem and_mask_even (x : Nat) : (x &&& 4294967294) % 2 = 0 := by
  rw [← Nat.and_one_is_mod, Nat.and_assoc, and_one_4294967294]
  exact Nat.and_zero x

theorem u32_parity (n : Nat) : u32 n % 2 = n % 2 := by
  unfold u32 U32
  exact Nat.mod_mod_of_dvd n (by norm_num)

theorem branch_write_PC_pc (a : Nat) (e : Emu) :
    (branch_write_PC a e).cpu.registers pcReg = u32 a &&& 4294967294 := by
  show Function.update e.cpu.registers pcReg (u32 a &&& 4294967294) pcReg = _
  exact Function.update_same pcReg _ _

theorem branch_write_PC_pc_even (a : Nat) (e : Emu) :
    (branch_write_PC a e).cpu.registers pcReg % 2 = 0 := by
  rw [branch_write_PC_pc]
  exact and_mask_even _

theorem branch_write_PC_time (a : Nat) (e : Emu) :
    (branch_write_PC a e).cpu.time = e.cpu.time := rfl

theorem bx_write_PC_ok {a : Nat} {e e2 : Emu} (h : bx_write_PC a e = .ok e2) :
    e2 = branch_write_PC a e := by
  unfold bx_write_PC at h
  split at h
  · injection h with h1
    exact h1.symm
  · simp at h

theorem blx_write_PC_ok {a : Nat} {e e2 : Emu} (h : blx_write_PC a e = .ok e2) :
    e2 = branch_write_PC a
      { e with cpu := { e.cpu with
          registers := Function.update e.cpu.registers lrReg
            (u32 (e.cpu.registers pcReg + 2 + 1)) } } := by
  simp only [blx_write_PC] at h
  exact bx_write_PC_ok h

theorem writeRd_time (beh : Beh) (rd : Fin 16) (v : Nat) (e : Emu) :
    (writeRd beh rd v e).1.cpu.time = e.cpu.time := by
  unfold writeRd
  split
  · rfl
  · rw [write_register_internal_cpu]

theorem writeRd_emulated_time (beh : Beh) (rd : Fin 16) (v : Nat) (e : Emu) :
    (writeRd beh rd v e).1.emulated_time = e.emulated_time := by
  unfold writeRd
  split
  · rfl
  · rw [write_register_internal_emulated_time]

theorem writeRd_flash (beh : Beh) (rd : Fin 16) (v : Nat) (e : Emu) :
    (writeRd beh rd v e).1.flash = e.flash := by
  unfold writeRd
  split
  · rfl
  · rw [write_register_internal_flash]

theorem writeRd_ram (beh : Beh) (rd : Fin 16) (v : Nat) (e : Emu) :
    (writeRd beh rd v e).1.ram = e.ram := by
  unfold writeRd
  split
  · rfl
  · rw [write_register_internal_ram]

theorem writeRd_pc_even {beh : Beh} {rd : Fin 16} {v : Nat} {e : Emu}
    (h : (writeRd beh rd v e).2 = true) :
    (writeRd beh rd v e).1.cpu.registers pcReg % 2 = 0 := by
  by_cases hrd : rd = pcReg
  · subst hrd
    unfold writeRd
    rw [if_pos rfl]
    exact branch_write_PC_pc_even v e
  · exfalso
    unfold writeRd at h
    rw [if_neg hrd] at h
    exact Bool.noConfusion h

theorem setNZ_time (v : Nat) (c : CPU_State) : (setNZ v c).time = c.time := rfl

theorem setNZCV_time (v : Nat) (co ov : Bool) (c : CPU_State) :
    (setNZCV v co ov c).time = c.time := rfl

theorem setNZ_registers (v : Nat) (c : CPU_State) : (setNZ v c).registers = c.registers := rfl

theorem setNZCV_registers (v : Nat) (co ov : Bool) (c : CPU_State) :
    (setNZCV v co ov c).registers = c.registers := rfl

theorem set_exclusive_monitors_time (addr align : Nat) (c : CPU_State) :
    (set_exclusive_monitors addr align c).time = c.time := rfl

theorem clear_exclusive_monitors_time (c : CPU_State) :
    (clear_exclusive_monitors c).time = c.time := rfl

theorem ok_pair_inj {p : Emu × Bool} {e' : Emu} {w : Bool}
    (h : (Except.ok p : Except ReturnCode (Emu × Bool)) = .ok (e', w)) :
    p.1 = e' ∧ p.2 = w := by
  injection h with h2
  exact ⟨congrArg Prod.fst h2, congrArg Prod.snd h2⟩

theorem write_memory_internal_ok_cpu {beh : Beh} {addr value bytes : Nat} {e e' : Emu}
    (h : write_memory_internal beh addr value bytes e = .ok e') :
    e'.cpu.time = e.cpu.time ∧ e'.cpu.registers = e.cpu.registers ∧
      e'.cpu.psr = e.cpu.psr ∧ e'.emulated_time = e.emulated_time := by
  cases h0 : validate_access e addr bytes with
  | none => simp [write_memory_internal, h0] at h
  | some w =>
    obtain ⟨hr, hp, ht, he, _, _⟩ := write_memory_internal_ok_frame h h0
    exact ⟨ht, hr, hp, he⟩

theorem execute_ok_frame {beh : Beh} {i : Instruction} {e e' : Emu} {w : Bool}
    (h : execute beh i e = .ok (e', w)) :
    e'.cpu.time = e.cpu.time ∧ e'.emulated_time = e.emulated_time ∧
      (w = true → e'.cpu.registers pcReg % 2 = 0) := by
  cases hop : i.opcode
  -- NOP
  · simp only [execute, hop] at h
    obtain ⟨he, hw⟩ := ok_pair_inj h
    rw [← he, ← hw]
    exact ⟨rfl, rfl, fun hc => Bool.noConfusion hc⟩
  -- MOV_imm
  · simp only [execute, hop] at h
    split at h
    · obtain ⟨he, hw⟩ := ok_pair_inj h
      rw [← he, ← hw]
      refine ⟨?_, ?_, fun hc => Bool.noConfusion hc⟩
      · show (setNZ _ _).time = _
        rw [setNZ_time, writeRd_time]
      · show (writeRd _ _ _ _).1.emulated_time = _
        rw [writeRd_emulated_time]
    · obtain ⟨he, hw⟩ := ok_pair_inj h
      rw [← he, ← hw]
      exact ⟨writeRd_time _ _ _ _, writeRd_emulated_time _ _ _ _, writeRd_pc_even⟩
  -- ADD_reg
  · simp only [execute, hop] at h
    split at h
    · obtain ⟨he, hw⟩ := ok_pair_inj h
      rw [← he, ← hw]
      refine ⟨?_, ?_, fun hc => Bool.noConfusion hc⟩
      · show (setNZCV _ _ _ _).time = _
        rw [setNZCV_time, writeRd_time, read_register_internal_cpu, read_register_internal_cpu]
      · show (writeRd _ _ _ _).1.emulated_time = _
        rw [writeRd_emulated_time, read_register_internal_emulated_time,
          read_register_internal_emulated_time]
    · obtain ⟨he, hw⟩ := ok_pair_inj h
      rw [← he, ← hw]
      refine ⟨?_, ?_, writeRd_pc_even⟩
      · rw [writeRd_time, read_register_internal_cpu, read_register_internal_cpu]
      · rw [writeRd_emulated_time, read_register_internal_emulated_time,
          read_register_internal_emulated_time]
  -- B
  · simp only [execute, hop] at h
    obtain ⟨he, hw⟩ := ok_pair_inj h
    rw [← he]
    exact ⟨rfl, rfl, fun _ => branch_write_PC_pc_even _ _⟩
  -- BX
  · simp only [execute, hop] at h
    cases hbx : bx_write_PC (read_register_internal beh i.Rm e).1
        (read_register_internal beh i.Rm e).2 with
    | error rc => rw [hbx] at h; simp [Except.map] at h
    | ok e2 =>
      rw [hbx] at h
      simp only [Except.map] at h
      obtain ⟨he, hw⟩ := ok_pair_inj h
      rw [← he]
      rw [bx_write_PC_ok hbx]
      refine ⟨?_, ?_, fun _ => branch_write_PC_pc_even _ _⟩
      · rw [branch_write_PC_time, read_register_internal_cpu]
      · rw [branch_write_PC_emulated_time, read_register_internal_emulated_time]
  -- BLX
  · simp only [execute, hop] at h
    cases hbx : blx_write_PC (read_register_internal beh i.Rm e).1
        (read_register_internal beh i.Rm e).2 with
    | error rc => rw [hbx] at h; simp [Except.map] at h
    | ok e2 =>
      rw [hbx] at h
      simp only [Except.map] at h
      obtain ⟨he, hw⟩ := ok_pair_inj h
      rw [← he]
      rw [blx_write_PC_ok hbx]
      refine ⟨?_, ?_, fun _ => branch_write_PC_pc_even _ _⟩
      · rw [branch_write_PC_time]
        show (read_register_internal beh i.Rm e).2.cpu.time = _
        rw [read_register_internal_cpu]
      · rw [branch_write_PC_emulated_time]
        show (read_register_internal beh i.Rm e).2.emulated_time = _
        rw [read_register_internal_emulated_time]
  -- LDR_imm
  · simp only [execute, hop] at h
    split at h
    · simp at h
    · cases hmem : read_memory_internal beh
          (u32 ((read_register_internal beh i.Rn e).1 + i.imm)) 4
          (read_register_internal beh i.Rn e).2 with
      | error rc => simp [hmem] at h
      | ok ve =>
        obtain ⟨v, e2⟩ := ve
        simp only [hmem] at h
        obtain ⟨he, hw⟩ := ok_pair_inj h
        rw [← he, ← hw]
        obtain ⟨hc, _, _, het⟩ := read_memory_internal_ok_frame hmem
        refine ⟨?_, ?_, writeRd_pc_even⟩
        · rw [writeRd_time, hc, read_register_internal_cpu]
        · rw [writeRd_emulated_time, het, read_register_internal_emulated_time]
  -- STR_imm
  · simp only [execute, hop] at h
    split at h
    · simp at h
    · cases hm : write_memory_internal beh
          (u32 ((read_register_internal beh i.Rn e).1 + i.imm))
          (read_register_internal beh i.Rt (read_register_internal beh i.Rn e).2).1 4
          (read_register_internal beh i.Rt (read_register_internal beh i.Rn e).2).2 with
      | error rc => rw [hm] at h; simp [Except.map] at h
      | ok e2 =>
        rw [hm] at h
        simp only [Except.map] at h
        obtain ⟨he, hw⟩ := ok_pair_inj h
        rw [← he, ← hw]
        obtain ⟨ht, _, _, het⟩ := write_memory_internal_ok_cpu hm
        refine ⟨?_, ?_, fun hc => Bool.noConfusion hc⟩
        · rw [ht, read_register_internal_cpu, read_register_internal_cpu]
        · rw [het, read_register_internal_emulated_time, read_register_internal_emulated_time]
  -- LDREX
  · simp only [execute, hop] at h
    split at h
    · simp at h
    · cases hmem : read_memory_internal beh
          (u32 ((read_register_internal beh i.Rn e).1 + i.imm)) 4
          { (read_register_internal beh i.Rn e).2 with
            cpu := set_exclusive_monitors
              (u32 ((read_register_internal beh i.Rn e).1 + i.imm)) 4
              (read_register_internal beh i.Rn e).2.cpu } with
      | error rc => simp [hmem] at h
      | ok ve =>
        obtain ⟨v, e2⟩ := ve
        simp only [hmem] at h
        obtain ⟨he, hw⟩ := ok_pair_inj h
        rw [← he, ← hw]
        obtain ⟨hc, _, _, het⟩ := read_memory_internal_ok_frame hmem
        refine ⟨?_, ?_, writeRd_pc_even⟩
        · rw [writeRd_time, hc]
          show (set_exclusive_monitors _ _ _).time = _
          rw [set_exclusive_monitors_time, read_register_internal_cpu]
        · rw [writeRd_emulated_time, het]
          show (read_register_internal beh i.Rn e).2.emulated_time = _
          rw [read_register_internal_emulated_time]
  -- STREX
  · simp only [execute, hop] at h
    split at h
    · simp at h
    · split at h
      · cases hm : write_memory_internal beh
            (u32 ((read_register_internal beh i.Rn e).1 + i.imm))
            (read_register_internal beh i.Rt (read_register_internal beh i.Rn e).2).1 4
            (read_register_internal beh i.Rt (read_register_internal beh i.Rn e).2).2 with
        | error rc => rw [hm] at h; simp at h
        | ok e2 =>
          rw [hm] at h
          obtain ⟨he, hw⟩ := ok_pair_inj h
          rw [← he, ← hw]
          obtain ⟨ht, _, _, het⟩ := write_memory_internal_ok_cpu hm
          refine ⟨?_, ?_, writeRd_pc_even⟩
          · rw [writeRd_time]
            show (clear_exclusive_monitors _).time = _
            rw [clear_exclusive_monitors_time, ht, read_register_internal_cpu,
              read_register_internal_cpu]
          · rw [writeRd_emulated_time, het, read_register_internal_emulated_time,
              read_register_internal_emulated_time]
      · obtain ⟨he, hw⟩ := ok_pair_inj h
        rw [← he, ← hw]
        refine ⟨?_, ?_, writeRd_pc_even⟩
        · rw [writeRd_time, read_register_internal_cpu, read_register_internal_cpu]
        · rw [writeRd_emulated_time, read_register_internal_emulated_time,
            read_register_internal_emulated_time]
  -- CLREX
  · simp only [execute, hop] at h
    obtain ⟨he, hw⟩ := ok_pair_inj h
    rw [← he, ← hw]
    exact ⟨rfl, rfl, fun hc => Bool.noConfusion hc⟩
  -- IT_op
  · simp only [execute, hop] at h
    obtain ⟨he, hw⟩ := ok_pair_inj h
    rw [← he, ← hw]
    exact ⟨rfl, rfl, fun hc => Bool.noConfusion hc⟩
  -- UNDEF
  · simp only [execute, hop] at h
    exact absurd h (by simp)

theorem stepCleanup_cpu (e : Emu) : (stepCleanup e).cpu = e.cpu := by
  unfold stepCleanup
  split <;> rfl

theorem stepCleanup_emulated_time (e : Emu) :
    (stepCleanup e).emulated_time = e.emulated_time := by
  unfold stepCleanup
  split <;> rfl

theorem stepCleanup_flash (e : Emu) : (stepCleanup e).flash = e.flash := by
  unfold stepCleanup
  split <;> rfl

theorem stepCleanup_ram (e : Emu) : (stepCleanup e).ram = e.ram := by
  unfold stepCleanup
  split <;> rfl

theorem stepCleanup_log (e : Emu) : (stepCleanup e).log = e.log := by
  unfold stepCleanup
  split <;> rfl

theorem advancePC_cpu_time (a isz : Nat) (e : Emu) :
    (advancePC a isz e).cpu.time = e.cpu.time := rfl

theorem advancePC_emulated_time (a isz : Nat) (e : Emu) :
    (advancePC a isz e).emulated_time = e.emulated_time := rfl

theorem advancePC_pc (a isz : Nat) (e : Emu) :
    (advancePC a isz e).cpu.registers pcReg = u32 (a + isz) := by
  show Function.update e.cpu.registers pcReg (u32 (a + isz)) pcReg = _
  exact Function.update_same pcReg _ _

theorem clock_cpu_time (e : Emu) : (clock_cpu e).cpu.time = u32 (e.cpu.time + 1) := rfl

theorem clock_cpu_emulated_time (e : Emu) :
    (clock_cpu e).emulated_time = u32 (e.emulated_time + 1) := rfl

theorem clock_cpu_registers (e : Emu) : (clock_cpu e).cpu.registers = e.cpu.registers := rfl

theorem finishStep_time (pcW : Bool) (a isz : Nat) (e : Emu) :
    (finishStep pcW a isz e).cpu.time = u32 (e.cpu.time + 1) := by
  unfold finishStep
  rw [clock_cpu_time]
  cases pcW <;> simp [advancePC_cpu_time, stepCleanup_cpu]

theorem finishStep_emulated_time (pcW : Bool) (a isz : Nat) (e : Emu) :
    (finishStep pcW a isz e).emulated_time = u32 (e.emulated_time + 1) := by
  unfold finishStep
  rw [clock_cpu_emulated_time]
  cases pcW <;> simp [advancePC_emulated_time, stepCleanup_emulated_time]

theorem finishStep_pc_true (a isz : Nat) (e : Emu) :
    (finishStep true a isz e).cpu.registers pcReg = e.cpu.registers pcReg := by
  unfold finishStep
  rw [clock_cpu_registers]
  simp [stepCleanup_cpu]

theorem finishStep_pc_false (a isz : Nat) (e : Emu) :
    (finishStep false a isz e).cpu.registers pcReg = u32 (a + isz) := by
  unfold finishStep
  rw [clock_cpu_registers]
  simp [advancePC_pc]

theorem predicted_size_even (hw : Nat) : predicted_size hw % 2 = 0 := by
  unfold predicted_size
  split <;> rfl

theorem step_ok_frame {beh : Beh} {dec : Nat → Instruction} {e e' : Emu}
    (h : step beh dec e = .ok e') :
    e'.cpu.time = u32 (e.cpu.time + 1) ∧
      e'.emulated_time = u32 (e.emulated_time + 1) ∧
      (e.cpu.registers pcReg % 2 = 0 → e'.cpu.registers pcReg % 2 = 0) := by
  simp only [step] at h
  split at h
  · exact absurd h (by simp)
  · next hw1 heq1 =>
    split at h
    · exact absurd h (by simp)
    · next bits heq2 =>
      split at h
      · -- condition passes: semantics execute
        split at h
        · exact absurd h (by simp)
        · next e4 pcW heq3 =>
          injection h with he
          subst he
          obtain ⟨h4t, h4e, h4p⟩ := execute_ok_frame heq3
          refine ⟨?_, ?_, ?_⟩
          · rw [finishStep_time, dispatch_cpu, h4t]
            dsimp only
            rw [dispatch_cpu, dispatch_cpu]
          · rw [finishStep_emulated_time, dispatch_emulated_time, h4e]
            dsimp only
            rw [dispatch_emulated_time, dispatch_emulated_time]
          · intro hpc
            cases pcW
            · rw [finishStep_pc_false, u32_parity]
              have h5 := predicted_size_even hw1
              omega
            · rw [finishStep_pc_true, dispatch_cpu]
              exact h4p rfl
      · -- condition fails: semantics skipped
        injection h with he
        subst he
        refine ⟨?_, ?_, ?_⟩
        · rw [finishStep_time, dispatch_cpu]
          dsimp only
          rw [dispatch_cpu, dispatch_cpu]
        · rw [finishStep_emulated_time, dispatch_emulated_time]
          dsimp only
          rw [dispatch_emulated_time, dispatch_emulated_time]
        · intro hpc
          rw [finishStep_pc_false, u32_parity]
          have h5 := predicted_size_even hw1
          omega

/-- C1: for every step of the execution engine (every executed instruction,
including one whose condition fails and whose semantic effect is skipped),
the CPU state's `time` counter increases by exactly 1 — in the 32-bit
arithmetic of the u32 counter, i.e. modulo 2^32, and as an exact Nat
increment whenever no wrap occurs. -/
theorem claim_C1_time_increments (beh : Beh) (dec : Nat → Instruction) (e e' : Emu)
    (h : step beh dec e = .ok e') :
    e'.cpu.time = u32 (e.cpu.time + 1) ∧
      (e.cpu.time + 1 < U32 → e'.cpu.time = e.cpu.time + 1) := by
  have h1 := (step_ok_frame h).1
  refine ⟨h1, fun hlt => ?_⟩
  rw [h1]
  exact Nat.mod_eq_of_lt hlt

theorem claim_C1_witness : (stepOut passiveBeh decNOP emuW).cpu.time = 1 := by
  have hstep : step passiveBeh decNOP emuW = .ok (stepOut passiveBeh decNOP emuW) := rfl
  have h := claim_C1_time_increments passiveBeh decNOP emuW _ hstep
  rw [h.1]
  rfl

/-- C2: after every step of the execution engine, bit 0 of the PC register
is 0 (as an invariant: a step from a state whose PC has bit 0 clear yields
a state whose PC has bit 0 clear); in particular every PC-writing path
(`branch_write_PC`, `bx_write_PC`, `blx_write_PC`) stores addr & ~1
(= addr &&& 4294967294 on the truncated value) into PC. -/
theorem claim_C2_pc_bit0_zero :
    (∀ (a : Nat) (e : Emu),
        (branch_write_PC a e).cpu.registers pcReg = u32 a &&& 4294967294) ∧
    (∀ (a : Nat) (e e' : Emu), bx_write_PC a e = .ok e' →
        e'.cpu.registers pcReg = u32 a &&& 4294967294) ∧
    (∀ (a : Nat) (e e' : Emu), blx_write_PC a e = .ok e' →
        e'.cpu.registers pcReg = u32 a &&& 4294967294) ∧
    (∀ (beh : Beh) (dec : Nat → Instruction) (e e' : Emu), step beh dec e = .ok e' →
        e.cpu.registers pcReg % 2 = 0 → e'.cpu.registers pcReg % 2 = 0) := by
  refine ⟨branch_write_PC_pc, ?_, ?_, ?_⟩
  · intro a e e' h
    rw [bx_write_PC_ok h]
    exact branch_write_PC_pc a e
  · intro a e e' h
    rw [blx_write_PC_ok h]
    exact branch_write_PC_pc a _
  · intro beh dec e e' h hpc
    exact (step_ok_frame h).2.2 hpc

theorem claim_C2_witness :
    (branch_write_PC 7 emuW).cpu.registers pcReg = 6 ∧
      (stepOut passiveBeh decNOP emuW).cpu.registers pcReg % 2 = 0 := by
  constructor
  · rw [claim_C2_pc_bit0_zero.1 7 emuW]
    decide
  · have hstep : step passiveBeh decNOP emuW = .ok (stepOut passiveBeh decNOP emuW) := rfl
    exact claim_C2_pc_bit0_zero.2.2.2 passiveBeh decNOP emuW _ hstep (by decide)

theorem clock_cpu_psr (e : Emu) : (clock_cpu e).cpu.psr = e.cpu.psr := rfl

theorem clock_cpu_flash (e : Emu) : (clock_cpu e).flash = e.flash := rfl

theorem clock_cpu_ram (e : Emu) : (clock_cpu e).ram = e.ram := rfl

theorem clock_cpu_log (e : Emu) : (clock_cpu e).log = e.log := rfl

theorem advancePC_psr (a isz : Nat) (e : Emu) : (advancePC a isz e).cpu.psr = e.cpu.psr := rfl

theorem advancePC_flash (a isz : Nat) (e : Emu) : (advancePC a isz e).flash = e.flash := rfl

theorem advancePC_ram (a isz : Nat) (e : Emu) : (advancePC a isz e).ram = e.ram := rfl

theorem advancePC_log (a isz : Nat) (e : Emu) : (advancePC a isz e).log = e.log := rfl

theorem advancePC_reg_ne {r : Fin 16} (h : r ≠ pcReg) (a isz : Nat) (e : Emu) :
    (advancePC a isz e).cpu.registers r = e.cpu.registers r := by
  show Function.update e.cpu.registers pcReg (u32 (a + isz)) r = _
  exact Function.update_noteq h _ _

theorem finishStep_psr (pcW : Bool) (a isz : Nat) (e : Emu) :
    (finishStep pcW a isz e).cpu.psr = e.cpu.psr := by
  unfold finishStep
  rw [clock_cpu_psr]
  cases pcW <;> simp [advancePC_psr, stepCleanup_cpu]

theorem finishStep_flash (pcW : Bool) (a isz : Nat) (e : Emu) :
    (finishStep pcW a isz e).flash = e.flash := by
  unfold finishStep
  rw [clock_cpu_flash]
  cases pcW <;> simp [advancePC_flash, stepCleanup_flash]

theorem finishStep_ram (pcW : Bool) (a isz : Nat) (e : Emu) :
    (finishStep pcW a isz e).ram = e.ram := by
  unfold finishStep
  rw [clock_cpu_ram]
  cases pcW <;> simp [advancePC_ram, stepCleanup_ram]

theorem finishStep_log (pcW : Bool) (a isz : Nat) (e : Emu) :
    (finishStep pcW a isz e).log = e.log := by
  unfold finishStep
  rw [clock_cpu_log]
  cases pcW <;> simp [advancePC_log, stepCleanup_log]

theorem finishStep_false_reg_ne {r : Fin 16} (h : r ≠ pcReg) (a isz : Nat) (e : Emu) :
    (finishStep false a isz e).cpu.registers r = e.cpu.registers r := by
  unfold finishStep
  rw [clock_cpu_registers]
  simp only [Bool.false_eq_true, if_false]
  rw [advancePC_reg_ne h, stepCleanup_cpu]

theorem evaluate_condition_it (c : Nat) (p : PSRState) (s : Nat) :
    evaluate_condition c { p with it_state := s } = evaluate_condition c p :=
  match c with
  | 0 => rfl | 1 => rfl | 2 => rfl | 3 => rfl | 4 => rfl | 5 => rfl | 6 => rfl
  | 7 => rfl | 8 => rfl | 9 => rfl | 10 => rfl | 11 => rfl | 12 => rfl | 13 => rfl
  | _ + 14 => rfl

theorem dispatchList_passive (mk : Nat → Event) :
    ∀ (l : List Nat) (e : Emu),
      dispatchList mk (fun _ => []) l e = { e with log := e.log ++ l.map mk }
  | [], e => by simp [dispatchList]
  | id :: rest, e => by
      rw [dispatchList]
      show dispatchList mk _ rest (addEvent (mk id) e) = _
      rw [dispatchList_passive mk rest]
      simp [addEvent]

theorem dispatch_passive (c : HookClass) (mk : Nat → Event) (e : Emu) :
    dispatch c mk (fun _ => []) e = { e with log := e.log ++ (e.fab.hooks c).map mk } :=
  dispatchList_passive mk _ e

/-- C3: if the instruction's condition evaluates to false, the step still
advances PC by the encoding width, still increments time by 1, still pops
the IT lane from psr.it_state, and still fires the instruction-executed
hooks with the decoded record (stated for passive hook bodies, which issue
no fabric command), but leaves registers, flags, and memory otherwise
unchanged: the semantic effect is skipped. -/
theorem claim_C3_condition_failed_retires (beh : Beh) (dec : Nat → Instruction)
    (e e' : Emu) (hw1 bits : Nat)
    (h0 : readMemRaw e (e.cpu.registers pcReg) 2 = some hw1)
    (h1 : readMemRaw e (e.cpu.registers pcReg) (predicted_size hw1) = some bits)
    (h2 : evaluate_condition (pop_IT_condition (dec bits) e.cpu.psr.it_state).1
        e.cpu.psr = false)
    (hstep : step beh dec e = .ok e') :
    e'.cpu.registers pcReg = u32 (e.cpu.registers pcReg + predicted_size hw1) ∧
    e'.cpu.time = u32 (e.cpu.time + 1) ∧
    e'.cpu.psr.it_state = (pop_IT_condition (dec bits) e.cpu.psr.it_state).2 ∧
    (∀ r : Fin 16, r ≠ pcReg → e'.cpu.registers r = e.cpu.registers r) ∧
    e'.cpu.psr.N = e.cpu.psr.N ∧ e'.cpu.psr.Z = e.cpu.psr.Z ∧
    e'.cpu.psr.C = e.cpu.psr.C ∧ e'.cpu.psr.V = e.cpu.psr.V ∧
    e'.cpu.psr.Q = e.cpu.psr.Q ∧
    e'.flash = e.flash ∧ e'.ram = e.ram ∧
    (∀ e2 : Emu, step (fun _ => []) dec e = .ok e2 →
      e2.log = e.log
        ++ (e.fab.hooks .onFetch).map
            (fun id => Event.fetchEv id (e.cpu.registers pcReg) (predicted_size hw1))
        ++ (e.fab.hooks .onDecode).map (fun id => Event.decodedEv id (dec bits))
        ++ (e.fab.hooks .onExecute).map (fun id => Event.executedEv id (dec bits))) := by
  simp only [step] at hstep
  simp only [h0] at hstep
  rw [readMemRaw_eq_of (dispatch_flash _ _ _ _) (dispatch_ram _ _ _ _)] at hstep
  simp only [h1] at hstep
  split at hstep
  · -- condition true: contradicts h2
    next hcond =>
    exfalso
    simp only [dispatch_cpu, evaluate_condition_it] at hcond
    exact Bool.noConfusion (h2.symm.trans hcond)
  · next hcond =>
    injection hstep with he
    subst he
    refine ⟨?_, ?_, ?_, ?_, ?_, ?_, ?_, ?_, ?_, ?_, ?_, ?_⟩
    · rw [finishStep_pc_false]
    · simp only [finishStep_time, dispatch_cpu]
    · simp only [finishStep_psr, dispatch_cpu]
    · intro r hr
      simp only [finishStep_false_reg_ne hr, dispatch_cpu]
    · simp only [finishStep_psr, dispatch_cpu]
    · simp only [finishStep_psr, dispatch_cpu]
    · simp only [finishStep_psr, dispatch_cpu]
    · simp only [finishStep_psr, dispatch_cpu]
    · simp only [finishStep_psr, dispatch_cpu]
    · simp only [finishStep_flash, dispatch_flash]
    · simp only [finishStep_ram, dispatch_ram]
    · intro e2 hstep2
      simp only [step] at hstep2
      simp only [h0] at hstep2
      rw [readMemRaw_eq_of (dispatch_flash _ _ _ _) (dispatch_ram _ _ _ _)] at hstep2
      simp only [h1] at hstep2
      split at hstep2
      · next hcond2 =>
        exfalso
        simp only [dispatch_cpu, evaluate_condition_it] at hcond2
        exact Bool.noConfusion (h2.symm.trans hcond2)
      · injection hstep2 with he2
        subst he2
        rw [finishStep_log]
        simp only [dispatch_passive]

theorem claim_C3_witness :
    (stepOut passiveBeh decEQMOV emuW).cpu.registers 1 = 0 ∧
      (stepOut passiveBeh decEQMOV emuW).cpu.registers pcReg = 2 := by
  have hstep : step passiveBeh decEQMOV emuW = .ok (stepOut passiveBeh decEQMOV emuW) := rfl
  have h := claim_C3_condition_failed_retires passiveBeh decEQMOV emuW
    (stepOut passiveBeh decEQMOV emuW) 0 0 rfl rfl rfl hstep
  constructor
  · rw [h.2.2.2.1 1 (by decide)]
    rfl
  · rw [h.1]
    rfl

theorem validate_access_congr {e1 e : Emu} (hf : e1.flash = e.flash) (hr : e1.ram = e.ram)
    (addr len : Nat) : validate_access e1 addr len = validate_access e addr len := by
  unfold validate_access
  rw [hf, hr]

/-- C4: executing a STREX-family instruction stores to memory and writes 0
into the status register if and only if the exclusive-monitor address still
matches the reservation; otherwise memory is left unchanged and the status
register receives 1; and every successful STREX clears the monitor
(resets exclusive_address to the no-reservation sentinel).  Stated for an
aligned, in-bounds access with register operands distinct from PC. -/
theorem claim_C4_strex_monitor (beh : Beh) (i : Instruction) (e : Emu) (w : Which)
    (addr : Nat)
    (hop : i.opcode = .STREX) (hRn : i.Rn ≠ pcReg) (hRt : i.Rt ≠ pcReg)
    (hRd : i.Rd ≠ pcReg)
    (haddr : addr = u32 (e.cpu.registers i.Rn + i.imm))
    (halign : addr % 4 = 0)
    (hval : validate_access e addr 4 = some w) :
    ∃ e', execute beh i e = .ok (e', false) ∧
      (exclusive_monitors_pass addr 4 e.cpu = true ↔
        e.cpu.exclusive_address = addr) ∧
      (exclusive_monitors_pass addr 4 e.cpu = true →
        e'.flash = (storeAt w addr (leBytes (u32 (e.cpu.registers i.Rt)) 4) e).flash ∧
        e'.ram = (storeAt w addr (leBytes (u32 (e.cpu.registers i.Rt)) 4) e).ram ∧
        e'.cpu.registers i.Rd = 0 ∧
        e'.cpu.exclusive_address = EXCLUSIVE_NONE) ∧
      (exclusive_monitors_pass addr 4 e.cpu = false →
        e'.flash = e.flash ∧ e'.ram = e.ram ∧ e'.cpu.registers i.Rd = 1) := by
  subst haddr
  have hA : (read_register_internal beh i.Rn e).1 = e.cpu.registers i.Rn := by
    rw [read_register_internal_fst, if_neg hRn]
  have hB : (read_register_internal beh i.Rt (read_register_internal beh i.Rn e).2).1 =
      e.cpu.registers i.Rt := by
    rw [read_register_internal_fst, if_neg hRt, read_register_internal_cpu]
  have hBcpu : (read_register_internal beh i.Rt (read_register_internal beh i.Rn e).2).2.cpu =
      e.cpu := by
    rw [read_register_internal_cpu, read_register_internal_cpu]
  have hBflash :
      (read_register_internal beh i.Rt (read_register_internal beh i.Rn e).2).2.flash =
        e.flash := by
    rw [read_register_internal_flash, read_register_internal_flash]
  have hBram :
      (read_register_internal beh i.Rt (read_register_internal beh i.Rn e).2).2.ram =
        e.ram := by
    rw [read_register_internal_ram, read_register_internal_ram]
  simp only [execute, hop, hA, hB, hBcpu]
  rw [if_neg (by simp [halign])]
  by_cases hpass :
      exclusive_monitors_pass (u32 (e.cpu.registers i.Rn + i.imm)) 4 e.cpu = true
  · rw [if_pos hpass]
    have hvalB : validate_access
        (read_register_internal beh i.Rt (read_register_internal beh i.Rn e).2).2
        (u32 (e.cpu.registers i.Rn + i.imm)) 4 = some w := by
      rw [validate_access_congr hBflash hBram]
      exact hval
    cases hm : write_memory_internal beh (u32 (e.cpu.registers i.Rn + i.imm))
        (e.cpu.registers i.Rt) 4
        (read_register_internal beh i.Rt (read_register_internal beh i.Rn e).2).2 with
    | error rc => simp [write_memory_internal, hvalB] at hm
    | ok e4 =>
      simp only [hm]
      simp only [writeRd, if_neg hRd]
      obtain ⟨hreg, hpsr, ht, hemu, hfl, hrm⟩ := write_memory_internal_ok_frame hm hvalB
      refine ⟨_, rfl, ?_, ?_, ?_⟩
      · simp [exclusive_monitors_pass, halign]
      · intro _
        refine ⟨?_, ?_, ?_, ?_⟩
        · rw [write_register_internal_flash]
          show e4.flash = _
          rw [hfl]
          exact storeAt_flash_congr hBflash w _ _
        · rw [write_register_internal_ram]
          show e4.ram = _
          rw [hrm]
          exact storeAt_ram_congr hBram w _ _
        · simp [write_register_internal_cpu, u32]
        · simp only [write_register_internal_cpu]
          show (clear_exclusive_monitors e4.cpu).exclusive_address = _
          rfl
      · intro hfail
        exact absurd (hpass.symm.trans hfail) (by simp)
  · rw [if_neg hpass]
    simp only [writeRd, if_neg hRd]
    refine ⟨_, rfl, ?_, ?_, ?_⟩
    · simp [exclusive_monitors_pass, halign]
    · intro htrue
      exact absurd htrue hpass
    · intro _
      refine ⟨?_, ?_, ?_⟩
      · rw [write_register_internal_flash]
        exact hBflash
      · rw [write_register_internal_ram]
        exact hBram
      · simp only [write_register_internal_cpu, hBcpu]
        show Function.update e.cpu.registers i.Rd (u32 1) i.Rd = 1
        rw [Function.update_same]
        norm_num [u32, U32]

theorem claim_C4_witness :
    (execOut passiveBeh insSTREX emuSTREXpass).1.cpu.registers 3 = 0 ∧
      (execOut passiveBeh insSTREX emuSTREXpass).1.cpu.exclusive_address = EXCLUSIVE_NONE ∧
      (execOut passiveBeh insSTREX emuSTREXfail).1.cpu.registers 3 = 1 ∧
      (execOut passiveBeh insSTREX emuSTREXfail).1.ram = emuSTREXfail.ram := by
  obtain ⟨e1, hex1, hiff1, hp1, hf1⟩ := claim_C4_strex_monitor passiveBeh insSTREX
    emuSTREXpass .ram 4096 rfl (by decide) (by decide) (by decide) rfl (by decide) rfl
  obtain ⟨e2, hex2, hiff2, hp2, hf2⟩ := claim_C4_strex_monitor passiveBeh insSTREX
    emuSTREXfail .ram 4096 rfl (by decide) (by decide) (by decide) rfl (by decide) rfl
  have he1 : execOut passiveBeh insSTREX emuSTREXpass = (e1, false) := by
    unfold execOut
    rw [hex1]
  have he2 : execOut passiveBeh insSTREX emuSTREXfail = (e2, false) := by
    unfold execOut
    rw [hex2]
  rw [he1, he2]
  obtain ⟨_, _, hr1, hx1⟩ := hp1 (by decide)
  obtain ⟨_, hrm2, hr2⟩ := hf2 (by decide)
  exact ⟨hr1, hx1, hr2, hrm2⟩

theorem contains_range_byte {r : MemoryRegion} {addr len k : Nat}
    (h : r.contains_range addr len = true) (hk : k < len) :
    r.inWindow (addr + k) = true := by
  unfold MemoryRegion.contains_range at h
  unfold MemoryRegion.inWindow
  rw [decide_eq_true_eq] at h
  rw [decide_eq_true_eq]
  omega

theorem validate_access_none {e : Emu} {addr len : Nat} (k : Nat) (hk : k < len)
    (hf : e.flash.inWindow (addr + k) = false) (hr : e.ram.inWindow (addr + k) = false) :
    validate_access e addr len = none := by
  have h1 : ¬ e.flash.contains_range addr len = true := fun hc => by
    rw [contains_range_byte hc hk] at hf
    exact Bool.noConfusion hf
  have h2 : ¬ e.ram.contains_range addr len = true := fun hc => by
    rw [contains_range_byte hc hk] at hr
    exact Bool.noConfusion hr
  unfold validate_access
  rw [if_neg h1, if_neg h2]

theorem readMemRaw_none {e : Emu} {addr len : Nat}
    (h : validate_access e addr len = none) : readMemRaw e addr len = none := by
  unfold readMemRaw
  rw [h]

/-- C5: for every emulator state and every memory access — fetch, data
read, or data write — if any byte of the accessed range lies outside both
the configured flash window and the configured RAM window, the operation
fails with OUT_OF_BOUNDS, and during emulate such a faulting step
terminates the call with that return code. -/
theorem claim_C5_out_of_bounds :
    (∀ (beh : Beh) (addr bytes k : Nat) (e : Emu), k < bytes →
      e.flash.inWindow (addr + k) = false → e.ram.inWindow (addr + k) = false →
      read_memory_internal beh addr bytes e = .error .OUT_OF_BOUNDS) ∧
    (∀ (beh : Beh) (addr value bytes k : Nat) (e : Emu), k < bytes →
      e.flash.inWindow (addr + k) = false → e.ram.inWindow (addr + k) = false →
      write_memory_internal beh addr value bytes e = .error .OUT_OF_BOUNDS) ∧
    (∀ (beh : Beh) (dec : Nat → Instruction) (e : Emu) (k : Nat), k < 2 →
      e.flash.inWindow (e.cpu.registers pcReg + k) = false →
      e.ram.inWindow (e.cpu.registers pcReg + k) = false →
      step beh dec e = .error .OUT_OF_BOUNDS) ∧
    (∀ (beh : Beh) (dec : Nat → Instruction) (endAddr : Option Nat) (n : Nat) (e : Emu),
      endAddr ≠ some (e.cpu.registers pcReg) →
      step beh dec { e with running := true, emulated_time := 0 } = .error .OUT_OF_BOUNDS →
      (emulate beh dec endAddr (n + 1) e).1 = .OUT_OF_BOUNDS) := by
  refine ⟨?_, ?_, ?_, ?_⟩
  · intro beh addr bytes k e hk hf hr
    unfold read_memory_internal
    rw [readMemRaw_none (validate_access_none k hk hf hr)]
  · intro beh addr value bytes k e hk hf hr
    unfold write_memory_internal
    rw [validate_access_none k hk hf hr]
  · intro beh dec e k hk hf hr
    simp only [step]
    rw [readMemRaw_none (validate_access_none k hk hf hr)]
  · intro beh dec endAddr n e hend hstep
    simp [emulate, emulateFuel, hstep, hend]

theorem claim_C5_witness :
    read_memory_internal passiveBeh 9000 4 emuW = .error .OUT_OF_BOUNDS ∧
      write_memory_internal passiveBeh 9000 7 4 emuW = .error .OUT_OF_BOUNDS ∧
      step passiveBeh decNOP emuBadPC = .error .OUT_OF_BOUNDS ∧
      (emulate passiveBeh decNOP none 5 emuBadPC).1 = .OUT_OF_BOUNDS := by
  refine ⟨claim_C5_out_of_bounds.1 passiveBeh 9000 4 0 emuW (by decide) (by decide) (by decide),
    claim_C5_out_of_bounds.2.1 passiveBeh 9000 7 4 0 emuW (by decide) (by decide) (by decide),
    claim_C5_out_of_bounds.2.2.1 passiveBeh decNOP emuBadPC 0 (by decide) (by decide) (by decide),
    claim_C5_out_of_bounds.2.2.2 passiveBeh decNOP none 4 emuBadPC (by simp)
      (claim_C5_out_of_bounds.2.2.1 passiveBeh decNOP
        { emuBadPC with running := true, emulated_time := 0 } 0
        (by decide) (by decide) (by decide))⟩

/-- C6: for every emulator state, calling set_cpu_state(get_cpu_state())
leaves the entire observable emulator state unchanged: it is a no-op. -/
theorem claim_C6_snapshot_restore_noop (e : Emu) :
    set_cpu_state (get_cpu_state e) e = e := rfl

/-- C7: the public accessors read_register, write_register, read_memory and
write_memory never fire any hook: the read accessors return the state
entirely unchanged, and the write accessors leave the hook fabric and the
event log (the record of every hook invocation) unchanged, for every state
and every argument. -/
theorem claim_C7_public_accessors_hook_free :
    (∀ (r : Fin 16) (e : Emu), (read_register r e).2 = e) ∧
    (∀ (r : Fin 16) (v : Nat) (e : Emu),
      (write_register r v e).log = e.log ∧ (write_register r v e).fab = e.fab) ∧
    (∀ (addr len : Nat) (e : Emu), (read_memory addr len e).2 = e) ∧
    (∀ (addr : Nat) (bs : List Nat) (e : Emu),
      (write_memory addr bs e).log = e.log ∧ (write_memory addr bs e).fab = e.fab) := by
  refine ⟨fun r e => rfl, fun r v e => ⟨rfl, rfl⟩, fun a l e => rfl, ?_⟩
  intro a bs e
  unfold write_memory
  cases h : validate_access e a bs.length with
  | none => exact ⟨rfl, rfl⟩
  | some w => cases w <;> exact ⟨rfl, rfl⟩

theorem addHookF_hooks (c cl : HookClass) (f : HookFabric) :
    (addHookF c f).2.hooks cl =
      if cl = c then f.hooks cl ++ [f.next_hook_id] else f.hooks cl := by
  by_cases hcl : cl = c
  · subst hcl
    simp [addHookF, Function.update_apply]
  · simp [addHookF, Function.update_apply, hcl]

theorem addHookF_next (c : HookClass) (f : HookFabric) :
    (addHookF c f).2.next_hook_id = f.next_hook_id + 1 := rfl

theorem addHookF_issued (c : HookClass) (f : HookFabric) :
    (addHookF c f).2.issued = f.issued ++ [f.next_hook_id] := rfl

theorem addHookF_fst (c : HookClass) (f : HookFabric) :
    (addHookF c f).1 = f.next_hook_id := rfl

theorem cleanup_hooks_hooks (f : HookFabric) (c : HookClass) :
    (cleanup_hooks f).hooks c =
      (f.hooks c).filter (fun j => decide (j ∉ f.remove_hooks)) := rfl

theorem cleanup_hook_hooks (i : Nat) (f : HookFabric) (c : HookClass) :
    (cleanup_hook i f).hooks c = (f.hooks c).filter (fun j => decide (j ≠ i)) := rfl

theorem WfBounds_addHookF {f : HookFabric} (c : HookClass) (h : WfBounds f) :
    WfBounds (addHookF c f).2 := by
  obtain ⟨h1, h2⟩ := h
  refine ⟨by rw [addHookF_next]; omega, ?_⟩
  intro cl hcl j hj
  rw [addHookF_hooks] at hj
  rw [addHookF_next]
  by_cases hc : cl = c
  · rw [if_pos hc] at hj
    rcases List.mem_append.1 hj with hj | hj
    · have := h2 cl hcl j hj
      omega
    · simp at hj
      omega
  · rw [if_neg hc] at hj
    have := h2 cl hcl j hj
    omega

theorem FabGone_addHookF {i : Nat} {f : HookFabric} (c : HookClass) (h : FabGone i f) :
    FabGone i (addHookF c f).2 := by
  obtain ⟨hwf, hlt, hni⟩ := h
  refine ⟨WfBounds_addHookF c hwf, by rw [addHookF_next]; omega, ?_⟩
  intro cl hmem
  rw [addHookF_hooks] at hmem
  by_cases hc : cl = c
  · rw [if_pos hc] at hmem
    rcases List.mem_append.1 hmem with hm | hm
    · exact hni cl hm
    · simp at hm
      omega
  · rw [if_neg hc] at hmem
    exact hni cl hmem

theorem WfBounds_cleanup_hooks {f : HookFabric} (h : WfBounds f) :
    WfBounds (cleanup_hooks f) := by
  obtain ⟨h1, h2⟩ := h
  refine ⟨h1, ?_⟩
  intro cl hcl j hj
  rw [cleanup_hooks_hooks] at hj
  exact h2 cl hcl j (List.mem_filter.1 hj).1

theorem FabGone_cleanup_hooks {i : Nat} {f : HookFabric} (h : FabGone i f) :
    FabGone i (cleanup_hooks f) := by
  obtain ⟨hwf, hlt, hni⟩ := h
  refine ⟨WfBounds_cleanup_hooks hwf, hlt, ?_⟩
  intro cl hmem
  rw [cleanup_hooks_hooks] at hmem
  exact hni cl (List.mem_filter.1 hmem).1

theorem WfBounds_cleanup_hook {f : HookFabric} (i' : Nat) (h : WfBounds f) :
    WfBounds (cleanup_hook i' f) := by
  obtain ⟨h1, h2⟩ := h
  refine ⟨h1, ?_⟩
  intro cl hcl j hj
  rw [cleanup_hook_hooks] at hj
  exact h2 cl hcl j (List.mem_filter.1 hj).1

theorem FabGone_cleanup_hook {i : Nat} {f : HookFabric} (i' : Nat) (h : FabGone i f) :
    FabGone i (cleanup_hook i' f) := by
  obtain ⟨hwf, hlt, hni⟩ := h
  refine ⟨WfBounds_cleanup_hook i' hwf, hlt, ?_⟩
  intro cl hmem
  rw [cleanup_hook_hooks] at hmem
  exact hni cl (List.mem_filter.1 hmem).1

theorem WfBounds_resetHooks {f : HookFabric} (h : WfBounds f) :
    WfBounds (resetHooks f) := by
  refine ⟨h.1, ?_⟩
  intro cl hcl j hj
  simp [resetHooks] at hj

theorem FabGone_resetHooks {i : Nat} {f : HookFabric} (h : FabGone i f) :
    FabGone i (resetHooks f) := by
  refine ⟨WfBounds_resetHooks h.1, h.2.1, ?_⟩
  intro cl hmem
  simp [resetHooks] at hmem

theorem cleanup_hooks_removes {i : Nat} {f : HookFabric} (h : i ∈ f.remove_hooks)
    (c : HookClass) : i ∉ (cleanup_hooks f).hooks c := by
  rw [cleanup_hooks_hooks]
  intro hmem
  have h2 := (List.mem_filter.1 hmem).2
  simp at h2
  exact h2 h

theorem cleanup_hook_removes (i : Nat) (f : HookFabric) (c : HookClass) :
    i ∉ (cleanup_hook i f).hooks c := by
  rw [cleanup_hook_hooks]
  intro hmem
  have h2 := (List.mem_filter.1 hmem).2
  simp at h2

theorem applyCmd_FabGone {i : Nat} (c : Cmd) {e : Emu} (h : FabGone i e.fab) :
    FabGone i (applyCmd c e).fab := by
  cases c
  · exact FabGone_addHookF _ h
  · exact h
  · exact h
  · exact h

theorem applyCmds_FabGone {i : Nat} :
    ∀ (cmds : List Cmd) {e : Emu}, FabGone i e.fab → FabGone i (applyCmds cmds e).fab
  | [], _, h => h
  | c :: cs, e, h => applyCmds_FabGone cs (applyCmd_FabGone c h)

theorem NoNewFires_of_log_eq {i : Nat} {base : List Event} {e1 e2 : Emu}
    (hlog : e2.log = e1.log) (h : NoNewFires i base e1) : NoNewFires i base e2 := by
  unfold NoNewFires at *
  rw [hlog]
  exact h

theorem dispatchList_StepInv {i : Nat} {base : List Event} (mk : Nat → Event) (beh : Beh)
    (hmk : ∀ id, (mk id).hookId = id) :
    ∀ (l : List Nat) {e : Emu}, StepInv i base e → (∀ id ∈ l, id ≠ i) →
      StepInv i base (dispatchList mk beh l e)
  | [], _, h, _ => h
  | id :: rest, e, h, hl => by
      rw [dispatchList]
      apply dispatchList_StepInv mk beh hmk rest
      · constructor
        · exact applyCmds_FabGone _ h.1
        · apply NoNewFires_of_log_eq (applyCmds_log _ _)
          intro ev hev
          rw [addEvent_log] at hev
          rcases List.mem_append.1 hev with hev | hev
          · exact h.2 ev hev
          · right
            simp at hev
            rw [hev, hmk]
            exact hl id (by simp)
      · intro id2 h2
        exact hl id2 (List.mem_cons_of_mem _ h2)

theorem dispatch_StepInv {i : Nat} {base : List Event} (c : HookClass) (mk : Nat → Event)
    (beh : Beh) (hmk : ∀ id, (mk id).hookId = id) {e : Emu} (h : StepInv i base e) :
    StepInv i base (dispatch c mk beh e) := by
  apply dispatchList_StepInv mk beh hmk _ h
  intro id hid heq
  exact (h.1.2.2 c) (heq ▸ hid)

theorem storeAt_fab (w : Which) (a : Nat) (bs : List Nat) (e : Emu) :
    (storeAt w a bs e).fab = e.fab := by cases w <;> rfl

theorem storeAt_log (w : Which) (a : Nat) (bs : List Nat) (e : Emu) :
    (storeAt w a bs e).log = e.log := by cases w <;> rfl

theorem rri_pres {P : Emu → Prop} {beh : Beh} (H : PresHyp beh P)
    {r : Fin 16} {e : Emu} (hP : P e) : P (read_register_internal beh r e).2 := by
  unfold read_register_internal
  exact H.dR _ _ _ _ (H.dR _ _ _ _ hP)

theorem wri_pres {P : Emu → Prop} {beh : Beh} (H : PresHyp beh P)
    {r : Fin 16} {v : Nat} {e : Emu} (hP : P e) : P (write_register_internal beh r v e) := by
  unfold write_register_internal
  exact H.dR _ _ _ _ (H.state _ _ _ _ _ _ (H.dR _ _ _ _ hP))

theorem writeRd_pres {P : Emu → Prop} {beh : Beh} (H : PresHyp beh P)
    {rd : Fin 16} {v : Nat} {e : Emu} (hP : P e) : P (writeRd beh rd v e).1 := by
  unfold writeRd
  split
  · exact H.state _ _ _ _ _ _ hP
  · exact wri_pres H hP

theorem rmi_pres {P : Emu → Prop} {beh : Beh} (H : PresHyp beh P)
    {a b : Nat} {e : Emu} {v : Nat} {e2 : Emu}
    (h : read_memory_internal beh a b e = .ok (v, e2)) (hP : P e) : P e2 := by
  simp only [read_memory_internal] at h
  cases h0 : readMemRaw e a b with
  | none => simp [h0] at h
  | some v0 =>
    simp only [h0] at h
    cases h1 : readMemRaw
        (dispatch .beforeMemRead (fun id => .memAccess .beforeMemRead id a b v0) beh e) a b with
    | none => simp [h1] at h
    | some v2 =>
      simp only [h1] at h
      injection h with h2
      injection h2 with hv he
      rw [← he]
      exact H.dM _ _ _ _ _ (H.dM _ _ _ _ _ hP)

theorem wmi_pres {P : Emu → Prop} {beh : Beh} (H : PresHyp beh P)
    {addr value bytes : Nat} {e e' : Emu}
    (h : write_memory_internal beh addr value bytes e = .ok e') (hP : P e) : P e' := by
  simp only [write_memory_internal] at h
  cases h0 : validate_access e addr bytes with
  | none => simp [h0] at h
  | some w =>
    simp only [h0] at h
    injection h with h2
    rw [← h2]
    cases w
    · exact H.dM _ _ _ _ _ (H.state
        (dispatch .beforeMemWrite
          (fun id => Event.memAccess .beforeMemWrite id addr bytes (u32 value)) beh e)
        _ _ _ _ _ (H.dM _ _ _ _ _ hP))
    · exact H.dM _ _ _ _ _ (H.state
        (dispatch .beforeMemWrite
          (fun id => Event.memAccess .beforeMemWrite id addr bytes (u32 value)) beh e)
        _ _ _ _ _ (H.dM _ _ _ _ _ hP))

theorem execute_pres {P : Emu → Prop} {beh : Beh} (H : PresHyp beh P)
    {i : Instruction} {e e' : Emu} {wq : Bool}
    (h : execute beh i e = .ok (e', wq)) (hP : P e) : P e' := by
  cases hop : i.opcode
  -- NOP
  · simp only [execute, hop] at h
    obtain ⟨he, hw⟩ := ok_pair_inj h
    exact he ▸ hP
  -- MOV_imm
  · simp only [execute, hop] at h
    split at h
    · obtain ⟨he, hw⟩ := ok_pair_inj h
      rw [← he]
      exact H.state _ _ _ _ _ _ (writeRd_pres H hP)
    · obtain ⟨he, hw⟩ := ok_pair_inj h
      rw [← he]
      exact writeRd_pres H hP
  -- ADD_reg
  · simp only [execute, hop] at h
    split at h
    · obtain ⟨he, hw⟩ := ok_pair_inj h
      rw [← he]
      exact H.state _ _ _ _ _ _ (writeRd_pres H (rri_pres H (rri_pres H hP)))
    · obtain ⟨he, hw⟩ := ok_pair_inj h
      rw [← he]
      exact writeRd_pres H (rri_pres H (rri_pres H hP))
  -- B
  · simp only [execute, hop] at h
    obtain ⟨he, hw⟩ := ok_pair_inj h
    rw [← he]
    exact H.state _ _ _ _ _ _ hP
  -- BX
  · simp only [execute, hop] at h
    cases hbx : bx_write_PC (read_register_internal beh i.Rm e).1
        (read_register_internal beh i.Rm e).2 with
    | error rc => rw [hbx] at h; simp [Except.map] at h
    | ok e2 =>
      rw [hbx] at h
      simp only [Except.map] at h
      obtain ⟨he, hw⟩ := ok_pair_inj h
      rw [← he, bx_write_PC_ok hbx]
      exact H.state _ _ _ _ _ _ (rri_pres H hP)
  -- BLX
  · simp only [execute, hop] at h
    cases hbx : blx_write_PC (read_register_internal beh i.Rm e).1
        (read_register_internal beh i.Rm e).2 with
    | error rc => rw [hbx] at h; simp [Except.map] at h
    | ok e2 =>
      rw [hbx] at h
      simp only [Except.map] at h
      obtain ⟨he, hw⟩ := ok_pair_inj h
      rw [← he, blx_write_PC_ok hbx]
      exact H.state _ _ _ _ _ _ (H.state _ _ _ _ _ _ (rri_pres H hP))
  -- LDR_imm
  · simp only [execute, hop] at h
    split at h
    · simp at h
    · cases hmem : read_memory_internal beh
          (u32 ((read_register_internal beh i.Rn e).1 + i.imm)) 4
          (read_register_internal beh i.Rn e).2 with
      | error rc => simp [hmem] at h
      | ok ve =>
        obtain ⟨v, e2⟩ := ve
        simp only [hmem] at h
        obtain ⟨he, hw⟩ := ok_pair_inj h
        rw [← he]
        exact writeRd_pres H (rmi_pres H hmem (rri_pres H hP))
  -- STR_imm
  · simp only [execute, hop] at h
    split at h
    · simp at h
    · cases hm : write_memory_internal beh
          (u32 ((read_register_internal beh i.Rn e).1 + i.imm))
          (read_register_internal beh i.Rt (read_register_internal beh i.Rn e).2).1 4
          (read_register_internal beh i.Rt (read_register_internal beh i.Rn e).2).2 with
      | error rc => rw [hm] at h; simp [Except.map] at h
      | ok e2 =>
        rw [hm] at h
        simp only [Except.map] at h
        obtain ⟨he, hw⟩ := ok_pair_inj h
        rw [← he]
        exact wmi_pres H hm (rri_pres H (rri_pres H hP))
  -- LDREX
  · simp only [execute, hop] at h
    split at h
    · simp at h
    · cases hmem : read_memory_internal beh
          (u32 ((read_register_internal beh i.Rn e).1 + i.imm)) 4
          { (read_register_internal beh i.Rn e).2 with
            cpu := set_exclusive_monitors
              (u32 ((read_register_internal beh i.Rn e).1 + i.imm)) 4
              (read_register_internal beh i.Rn e).2.cpu } with
      | error rc => simp [hmem] at h
      | ok ve =>
        obtain ⟨v, e2⟩ := ve
        simp only [hmem] at h
        obtain ⟨he, hw⟩ := ok_pair_inj h
        rw [← he]
        exact writeRd_pres H
          (rmi_pres H hmem (H.state _ _ _ _ _ _ (rri_pres H hP)))
  -- STREX
  · simp only [execute, hop] at h
    split at h
    · simp at h
    · split at h
      · cases hm : write_memory_internal beh
            (u32 ((read_register_internal beh i.Rn e).1 + i.imm))
            (read_register_internal beh i.Rt (read_register_internal beh i.Rn e).2).1 4
            (read_register_internal beh i.Rt (read_register_internal beh i.Rn e).2).2 with
        | error rc => rw [hm] at h; simp at h
        | ok e2 =>
          rw [hm] at h
          obtain ⟨he, hw⟩ := ok_pair_inj h
          rw [← he]
          exact writeRd_pres H
            (H.state _ _ _ _ _ _ (wmi_pres H hm (rri_pres H (rri_pres H hP))))
      · obtain ⟨he, hw⟩ := ok_pair_inj h
        rw [← he]
        exact writeRd_pres H (rri_pres H (rri_pres H hP))
  -- CLREX
  · simp only [execute, hop] at h
    obtain ⟨he, hw⟩ := ok_pair_inj h
    rw [← he]
    exact H.state _ _ _ _ _ _ hP
  -- IT_op
  · simp only [execute, hop] at h
    obtain ⟨he, hw⟩ := ok_pair_inj h
    rw [← he]
    exact H.state _ _ _ _ _ _ hP
  -- UNDEF
  · simp only [execute, hop] at h
    exact absurd h (by simp)

theorem finishStep_pres {P : Emu → Prop} {beh : Beh} (H : PresHyp beh P)
    (hclean : ∀ e : Emu, P e → P { e with fab := cleanup_hooks e.fab })
    (pcW : Bool) (a isz : Nat) {X : Emu} (hX : P X) : P (finishStep pcW a isz X) := by
  have hSC : P (stepCleanup X) := by
    unfold stepCleanup
    split
    · exact hclean X hX
    · exact hX
  unfold finishStep
  cases pcW
  · show P (clock_cpu (if (false = true) then stepCleanup X
      else advancePC a isz (stepCleanup X)))
    rw [if_neg (by simp)]
    exact H.state _ _ _ _ _ _ (H.state (stepCleanup X) _ _ _ _ _ hSC)
  · show P (clock_cpu (if (true = true) then stepCleanup X
      else advancePC a isz (stepCleanup X)))
    rw [if_pos rfl]
    exact H.state _ _ _ _ _ _ hSC

theorem step_pres {P : Emu → Prop} {beh : Beh} {dec : Nat → Instruction}
    (H : PresHyp beh P)
    (hclean : ∀ e : Emu, P e → P { e with fab := cleanup_hooks e.fab })
    {e e' : Emu} (h : step beh dec e = .ok e') (hP : P e) : P e' := by
  simp only [step] at h
  split at h
  · exact absurd h (by simp)
  · split at h
    · exact absurd h (by simp)
    · split at h
      · split at h
        · exact absurd h (by simp)
        · next e4 pcW heq3 =>
          injection h with he
          subst he
          apply finishStep_pres H hclean
          exact H.dE _ _ (execute_pres H heq3
            (H.state _ _ _ _ _ _ (H.dD _ _ (H.dF _ _ _ hP))))
      · injection h with he
        subst he
        apply finishStep_pres H hclean
        exact H.dE _ _ (H.state _ _ _ _ _ _ (H.dD _ _ (H.dF _ _ _ hP)))

theorem PresHyp_StepInv (i : Nat) (base : List Event) (beh : Beh) :
    PresHyp beh (StepInv i base) := by
  refine ⟨?_, ?_, ?_, ?_, ?_, ?_⟩
  · intro a isz e h
    exact dispatch_StepInv _ (fun id => Event.fetchEv id a isz) _ (fun _ => rfl) h
  · intro ins e h
    exact dispatch_StepInv _ (fun id => Event.decodedEv id ins) _ (fun _ => rfl) h
  · intro ins e h
    exact dispatch_StepInv _ (fun id => Event.executedEv id ins) _ (fun _ => rfl) h
  · intro c a sz v e h
    exact dispatch_StepInv _ (fun id => Event.memAccess c id a sz v) _ (fun _ => rfl) h
  · intro c r v e h
    exact dispatch_StepInv _ (fun id => Event.regAccess c id r v) _ (fun _ => rfl) h
  · intro e c fl rm t b h
    exact h

theorem step_StepInv {i : Nat} {base : List Event} {beh : Beh} {dec : Nat → Instruction}
    {e e' : Emu} (h : step beh dec e = .ok e') (hP : StepInv i base e) :
    StepInv i base e' :=
  step_pres (PresHyp_StepInv i base beh)
    (fun _ h2 => ⟨FabGone_cleanup_hooks h2.1, h2.2⟩) h hP

theorem applyEmuOp_StepInv {i : Nat} {base : List Event} (op : EmuOp) {e : Emu}
    (h : StepInv i base e) : StepInv i base (applyEmuOp op e) := by
  cases op with
  | stepOp beh dec =>
    simp only [applyEmuOp]
    cases hs : step beh dec e with
    | error rc => exact h
    | ok e2 => exact step_StepInv hs h
  | addOp c => exact ⟨FabGone_addHookF c h.1, h.2⟩
  | removeOp j => exact ⟨FabGone_cleanup_hook j h.1, h.2⟩
  | clearOp => exact ⟨FabGone_resetHooks h.1, h.2⟩
  | writeRegOp r v => exact h
  | writeMemOp a bs =>
    simp only [applyEmuOp, write_memory]
    cases hv : validate_access e a bs.length with
    | none => exact h
    | some w => cases w <;> exact h
  | setStateOp s => exact h
  | stopOp => exact h

theorem runOps_StepInv {i : Nat} {base : List Event} :
    ∀ (ops : List EmuOp) {e : Emu}, StepInv i base e → StepInv i base (runOps ops e)
  | [], _, h => h
  | op :: ops, e, h => runOps_StepInv ops (applyEmuOp_StepInv op h)

theorem noNewFiresB_iff {i : Nat} {base : List Event} {e : Emu} :
    noNewFiresB i base e = true ↔ NoNewFires i base e := by
  unfold noNewFiresB NoNewFires
  simp [List.all_eq_true, Bool.or_eq_true, decide_eq_true_eq]

theorem applyCmd_pend_mono {i : Nat} (c : Cmd) {e : Emu}
    (h : i ∈ e.fab.remove_hooks ∧ e.fab.cleanup_requested = true) :
    i ∈ (applyCmd c e).fab.remove_hooks ∧ (applyCmd c e).fab.cleanup_requested = true := by
  cases c
  · exact h
  · exact ⟨List.mem_append.2 (Or.inl h.1), rfl⟩
  · exact ⟨List.mem_append.2 (Or.inl h.1), rfl⟩
  · exact h

theorem applyCmds_pend_mono {i : Nat} :
    ∀ (cmds : List Cmd) {e : Emu},
      i ∈ e.fab.remove_hooks ∧ e.fab.cleanup_requested = true →
      i ∈ (applyCmds cmds e).fab.remove_hooks ∧
        (applyCmds cmds e).fab.cleanup_requested = true
  | [], _, h => h
  | c :: cs, e, h => applyCmds_pend_mono cs (applyCmd_pend_mono c h)

theorem applyCmds_pend_establish {i : Nat} :
    ∀ (cmds : List Cmd) {e : Emu}, Cmd.removeHook i ∈ cmds →
      i ∈ (applyCmds cmds e).fab.remove_hooks ∧
        (applyCmds cmds e).fab.cleanup_requested = true
  | [], _, hmem => absurd hmem (List.not_mem_nil _)
  | c :: cs, e, hmem => by
      rw [applyCmds]
      rcases List.mem_cons.1 hmem with hc | hc
      · subst hc
        apply applyCmds_pend_mono
        exact ⟨List.mem_append.2 (Or.inr (by simp)), rfl⟩
      · exact applyCmds_pend_establish cs hc

theorem applyCmd_WfBounds (c : Cmd) {e : Emu} (h : WfBounds e.fab) :
    WfBounds (applyCmd c e).fab := by
  cases c
  · exact WfBounds_addHookF _ h
  · exact h
  · exact h
  · exact h

theorem applyCmds_WfBounds :
    ∀ (cmds : List Cmd) {e : Emu}, WfBounds e.fab → WfBounds (applyCmds cmds e).fab
  | [], _, h => h
  | c :: cs, e, h => applyCmds_WfBounds cs (applyCmd_WfBounds c h)

theorem applyCmd_next_le (c : Cmd) (e : Emu) :
    e.fab.next_hook_id ≤ (applyCmd c e).fab.next_hook_id := by
  cases c
  · exact Nat.le_succ _
  · exact Nat.le_refl _
  · exact Nat.le_refl _
  · exact Nat.le_refl _

theorem applyCmds_next_le :
    ∀ (cmds : List Cmd) (e : Emu),
      e.fab.next_hook_id ≤ (applyCmds cmds e).fab.next_hook_id
  | [], _ => Nat.le_refl _
  | c :: cs, e =>
      Nat.le_trans (applyCmd_next_le c e) (applyCmds_next_le cs (applyCmd c e))

theorem dispatchList_PendInv {i : Nat} {base : List Event} (mk : Nat → Event) (beh : Beh)
    (hmk : ∀ id, (mk id).hookId = id) (hbeh : Cmd.removeHook i ∈ beh i) :
    ∀ (l : List Nat) {e : Emu}, PendInv i base e → PendInv i base (dispatchList mk beh l e)
  | [], _, h => h
  | id :: rest, e, h => by
      rw [dispatchList]
      apply dispatchList_PendInv mk beh hmk hbeh rest
      obtain ⟨hwf, hlt, himpl⟩ := h
      refine ⟨applyCmds_WfBounds _ hwf,
        Nat.lt_of_lt_of_le hlt (applyCmds_next_le (beh id) (addEvent (mk id) e)), ?_⟩
      intro hfired
      by_cases hid : id = i
      · subst hid
        exact applyCmds_pend_establish _ hbeh
      · have hfired2 : ∃ ev ∈ e.log, ev ∉ base ∧ Event.hookId ev = i := by
          obtain ⟨ev, hev, hnb, hid2⟩ := hfired
          rw [applyCmds_log, addEvent_log] at hev
          rcases List.mem_append.1 hev with hev | hev
          · exact ⟨ev, hev, hnb, hid2⟩
          · exfalso
            simp at hev
            rw [hev, hmk] at hid2
            exact hid hid2
        exact applyCmds_pend_mono _ (himpl hfired2)

theorem PresHyp_PendInv (i : Nat) (base : List Event) (beh : Beh)
    (hbeh : Cmd.removeHook i ∈ beh i) : PresHyp beh (PendInv i base) := by
  refine ⟨?_, ?_, ?_, ?_, ?_, ?_⟩
  · intro a isz e h
    exact dispatchList_PendInv (fun id => Event.fetchEv id a isz) beh (fun _ => rfl) hbeh _ h
  · intro ins e h
    exact dispatchList_PendInv (fun id => Event.decodedEv id ins) beh (fun _ => rfl) hbeh _ h
  · intro ins e h
    exact dispatchList_PendInv (fun id => Event.executedEv id ins) beh (fun _ => rfl) hbeh _ h
  · intro c a sz v e h
    exact dispatchList_PendInv (fun id => Event.memAccess c id a sz v) beh (fun _ => rfl) hbeh _ h
  · intro c r v e h
    exact dispatchList_PendInv (fun id => Event.regAccess c id r v) beh (fun _ => rfl) hbeh _ h
  · intro e c fl rm t b h
    exact h

theorem finishStep_fab (pcW : Bool) (a isz : Nat) (X : Emu) :
    (finishStep pcW a isz X).fab = (stepCleanup X).fab := by
  cases pcW <;> rfl

theorem stepCleanup_fab (X : Emu) :
    (stepCleanup X).fab =
      if X.fab.cleanup_requested then cleanup_hooks X.fab else X.fab := by
  unfold stepCleanup
  split <;> simp [*]

/-- C8: for every hook id i returned by a registration: if remove_hook(i)
is called outside a dispatch, hook i never fires again over any sequence of
public operations (no later event carries id i); if hook i removes itself
from inside its own dispatch during a step, removal is deferred (the
current dispatch iterates the frozen list, so the body completes) and after
that step the id is in no hook list and never fires again. -/
theorem claim_C8_remove_hook_never_fires :
    (∀ (i : Nat) (e : Emu) (ops : List EmuOp), WfBounds e.fab →
      i < e.fab.next_hook_id →
      noNewFiresB i (remove_hook i e).log (runOps ops (remove_hook i e)) = true) ∧
    (∀ (i : Nat) (c0 : HookClass) (beh : Beh) (dec : Nat → Instruction) (e e' : Emu),
      WfBounds e.fab → i ∈ e.fab.hooks c0 → Cmd.removeHook i ∈ beh i →
      step beh dec e = .ok e' →
      (∃ ev ∈ e'.log, ev ∉ e.log ∧ Event.hookId ev = i) →
      (∀ cl : HookClass, i ∉ e'.fab.hooks cl) ∧
      (∀ ops : List EmuOp, noNewFiresB i e'.log (runOps ops e') = true)) := by
  constructor
  · intro i e ops hwf hlt
    rw [noNewFiresB_iff]
    have h0 : StepInv i (remove_hook i e).log (remove_hook i e) := by
      refine ⟨⟨WfBounds_cleanup_hook i hwf, hlt, fun cl => cleanup_hook_removes i e.fab cl⟩, ?_⟩
      intro ev hev
      exact Or.inl hev
    exact (runOps_StepInv ops h0).2
  · intro i c0 beh dec e e' hwf hmem hbeh hstep hfired
    have hlt : i < e.fab.next_hook_id := (hwf.2 c0 (mem_allClasses c0) i hmem).2
    have hP0 : PendInv i e.log e := by
      refine ⟨hwf, hlt, ?_⟩
      rintro ⟨ev, hev, hnb, _⟩
      exact absurd hev hnb
    have H := PresHyp_PendInv i e.log beh hbeh
    simp only [step] at hstep
    split at hstep
    · exact absurd hstep (by simp)
    · next hw1 heq1 =>
      split at hstep
      · exact absurd hstep (by simp)
      · next bits heq2 =>
        split at hstep
        · split at hstep
          · exact absurd hstep (by simp)
          · next e4 pcW heq3 =>
            injection hstep with he
            subst he
            rw [finishStep_log] at hfired
            have hmid : PendInv i e.log
                (dispatch .onExecute (fun id => Event.executedEv id (dec bits)) beh e4) :=
              H.dE _ _ (execute_pres H heq3
                (H.state _ _ _ _ _ _ (H.dD _ _ (H.dF _ _ _ hP0))))
            obtain ⟨hrm, hflag⟩ := hmid.2.2 hfired
            constructor
            · intro cl
              rw [finishStep_fab, stepCleanup_fab, if_pos hflag]
              exact cleanup_hooks_removes hrm cl
            · intro ops
              rw [noNewFiresB_iff]
              refine (runOps_StepInv ops ?_).2
              refine ⟨⟨?_, ?_, ?_⟩, fun ev hev => Or.inl hev⟩
              · rw [finishStep_fab, stepCleanup_fab, if_pos hflag]
                exact WfBounds_cleanup_hooks hmid.1
              · rw [finishStep_fab, stepCleanup_fab, if_pos hflag]
                exact hmid.2.1
              · intro cl
                rw [finishStep_fab, stepCleanup_fab, if_pos hflag]
                exact cleanup_hooks_removes hrm cl
        · injection hstep with he
          subst he
          rw [finishStep_log] at hfired
          have hmid : PendInv i e.log
              (dispatch .onExecute (fun id => Event.executedEv id (dec bits)) beh
                { dispatch .onDecode (fun id => Event.decodedEv id (dec bits)) beh
                    (dispatch .onFetch
                      (fun id => Event.fetchEv id (e.cpu.registers pcReg)
                        (predicted_size hw1)) beh e) with
                  cpu := { (dispatch .onDecode (fun id => Event.decodedEv id (dec bits)) beh
                      (dispatch .onFetch
                        (fun id => Event.fetchEv id (e.cpu.registers pcReg)
                          (predicted_size hw1)) beh e)).cpu with
                    psr := { (dispatch .onDecode (fun id => Event.decodedEv id (dec bits)) beh
                        (dispatch .onFetch
                          (fun id => Event.fetchEv id (e.cpu.registers pcReg)
                            (predicted_size hw1)) beh e)).cpu.psr with
                      it_state := (pop_IT_condition (dec bits)
                        (dispatch .onDecode (fun id => Event.decodedEv id (dec bits)) beh
                          (dispatch .onFetch
                            (fun id => Event.fetchEv id (e.cpu.registers pcReg)
                              (predicted_size hw1)) beh e)).cpu.psr.it_state).2 } } }) :=
            H.dE _ _ (H.state _ _ _ _ _ _ (H.dD _ _ (H.dF _ _ _ hP0)))
          obtain ⟨hrm, hflag⟩ := hmid.2.2 hfired
          constructor
          · intro cl
            rw [finishStep_fab, stepCleanup_fab, if_pos hflag]
            exact cleanup_hooks_removes hrm cl
          · intro ops
            rw [noNewFiresB_iff]
            refine (runOps_StepInv ops ?_).2
            refine ⟨⟨?_, ?_, ?_⟩, fun ev hev => Or.inl hev⟩
            · rw [finishStep_fab, stepCleanup_fab, if_pos hflag]
              exact WfBounds_cleanup_hooks hmid.1
            · rw [finishStep_fab, stepCleanup_fab, if_pos hflag]
              exact hmid.2.1
            · intro cl
              rw [finishStep_fab, stepCleanup_fab, if_pos hflag]
              exact cleanup_hooks_removes hrm cl

theorem claim_C8_witness :
    (∀ cl : HookClass, 1 ∉ (stepOut behSelfRemove decNOP emuHook).fab.hooks cl) ∧
      noNewFiresB 1 (stepOut behSelfRemove decNOP emuHook).log
        (runOps [EmuOp.stepOp behSelfRemove decNOP]
          (stepOut behSelfRemove decNOP emuHook)) = true ∧
      noNewFiresB 1 (remove_hook 1 emuHook).log
        (runOps [EmuOp.stepOp behSelfRemove decNOP] (remove_hook 1 emuHook)) = true := by
  have hstep : step behSelfRemove decNOP emuHook =
      .ok (stepOut behSelfRemove decNOP emuHook) := rfl
  have h := claim_C8_remove_hook_never_fires.2 1 .onExecute behSelfRemove decNOP emuHook
    (stepOut behSelfRemove decNOP emuHook) (by unfold WfBounds; decide) (by decide)
    (by simp [behSelfRemove]) hstep
    ⟨Event.executedEv 1 (decNOP 0), by decide, by decide, rfl⟩
  exact ⟨h.1, h.2 [EmuOp.stepOp behSelfRemove decNOP],
    claim_C8_remove_hook_never_fires.1 1 emuHook [EmuOp.stepOp behSelfRemove decNOP]
      (by unfold WfBounds; decide) (by decide)⟩

theorem WfIssued_addHookF {f : HookFabric} (c : HookClass) (h : WfIssued f) :
    WfIssued (addHookF c f).2 := by
  obtain ⟨h1, h2⟩ := h
  constructor
  · intro j hj
    rw [addHookF_issued] at hj
    rw [addHookF_next]
    rcases List.mem_append.1 hj with hj | hj
    · have := h1 j hj
      omega
    · simp at hj
      omega
  · rw [addHookF_next]
    omega

theorem applyCmd_WfIssued (c : Cmd) {e : Emu} (h : WfIssued e.fab) :
    WfIssued (applyCmd c e).fab := by
  cases c
  · exact WfIssued_addHookF _ h
  · exact h
  · exact h
  · exact h

theorem applyCmds_WfIssued :
    ∀ (cmds : List Cmd) {e : Emu}, WfIssued e.fab → WfIssued (applyCmds cmds e).fab
  | [], _, h => h
  | c :: cs, e, h => applyCmds_WfIssued cs (applyCmd_WfIssued c h)

theorem dispatchList_WfIssued (mk : Nat → Event) (beh : Beh) :
    ∀ (l : List Nat) {e : Emu}, WfIssued e.fab → WfIssued (dispatchList mk beh l e).fab
  | [], _, h => h
  | id :: rest, e, h =>
      dispatchList_WfIssued mk beh rest (applyCmds_WfIssued (beh id) h)

theorem PresHyp_WfIssued (beh : Beh) : PresHyp beh (fun e2 => WfIssued e2.fab) := by
  refine ⟨?_, ?_, ?_, ?_, ?_, ?_⟩
  · intro a isz e h
    exact dispatchList_WfIssued _ _ _ h
  · intro ins e h
    exact dispatchList_WfIssued _ _ _ h
  · intro ins e h
    exact dispatchList_WfIssued _ _ _ h
  · intro c a sz v e h
    exact dispatchList_WfIssued _ _ _ h
  · intro c r v e h
    exact dispatchList_WfIssued _ _ _ h
  · intro e c fl rm t b h
    exact h

theorem issued_ext_trans {a b c : List Nat} (h1 : ∃ t, b = a ++ t)
    (h2 : ∃ t, c = b ++ t) : ∃ t, c = a ++ t := by
  obtain ⟨t1, rfl⟩ := h1
  obtain ⟨t2, rfl⟩ := h2
  exact ⟨t1 ++ t2, List.append_assoc _ _ _⟩

theorem applyCmd_issued_ext (c : Cmd) (e : Emu) :
    ∃ t, (applyCmd c e).fab.issued = e.fab.issued ++ t := by
  cases c
  · exact ⟨[e.fab.next_hook_id], rfl⟩
  · exact ⟨[], (List.append_nil _).symm⟩
  · exact ⟨[], (List.append_nil _).symm⟩
  · exact ⟨[], (List.append_nil _).symm⟩

theorem applyCmds_issued_ext :
    ∀ (cmds : List Cmd) (e : Emu),
      ∃ t, (applyCmds cmds e).fab.issued = e.fab.issued ++ t
  | [], _ => ⟨[], (List.append_nil _).symm⟩
  | c :: cs, e =>
      issued_ext_trans (applyCmd_issued_ext c e) (applyCmds_issued_ext cs (applyCmd c e))

theorem dispatchList_issued_ext (mk : Nat → Event) (beh : Beh) :
    ∀ (l : List Nat) (e : Emu),
      ∃ t, (dispatchList mk beh l e).fab.issued = e.fab.issued ++ t
  | [], _ => ⟨[], (List.append_nil _).symm⟩
  | id :: rest, e =>
      issued_ext_trans (applyCmds_issued_ext (beh id) (addEvent (mk id) e))
        (dispatchList_issued_ext mk beh rest _)

theorem PresHyp_issued_ext (beh : Beh) (base : List Nat) :
    PresHyp beh (fun e2 => ∃ t, e2.fab.issued = base ++ t) := by
  refine ⟨?_, ?_, ?_, ?_, ?_, ?_⟩
  · intro a isz e h
    exact issued_ext_trans h (dispatchList_issued_ext _ _ _ _)
  · intro ins e h
    exact issued_ext_trans h (dispatchList_issued_ext _ _ _ _)
  · intro ins e h
    exact issued_ext_trans h (dispatchList_issued_ext _ _ _ _)
  · intro c a sz v e h
    exact issued_ext_trans h (dispatchList_issued_ext _ _ _ _)
  · intro c r v e h
    exact issued_ext_trans h (dispatchList_issued_ext _ _ _ _)
  · intro e c fl rm t b h
    exact h

theorem applyEmuOp_WfIssued (op : EmuOp) {e : Emu} (h : WfIssued e.fab) :
    WfIssued (applyEmuOp op e).fab := by
  cases op with
  | stepOp beh dec =>
    simp only [applyEmuOp]
    cases hs : step beh dec e with
    | error rc => exact h
    | ok e2 => exact step_pres (PresHyp_WfIssued beh) (fun _ h2 => h2) hs h
  | addOp c => exact WfIssued_addHookF c h
  | removeOp j => exact h
  | clearOp => exact h
  | writeRegOp r v => exact h
  | writeMemOp a bs =>
    simp only [applyEmuOp, write_memory]
    cases hv : validate_access e a bs.length with
    | none => exact h
    | some w => cases w <;> exact h
  | setStateOp s => exact h
  | stopOp => exact h

theorem applyEmuOp_issued_ext (op : EmuOp) (e : Emu) :
    ∃ t, (applyEmuOp op e).fab.issued = e.fab.issued ++ t := by
  cases op with
  | stepOp beh dec =>
    simp only [applyEmuOp]
    cases hs : step beh dec e with
    | error rc => exact ⟨[], (List.append_nil _).symm⟩
    | ok e2 =>
      exact step_pres (PresHyp_issued_ext beh e.fab.issued) (fun _ h2 => h2) hs
        ⟨[], (List.append_nil _).symm⟩
  | addOp c => exact ⟨[e.fab.next_hook_id], rfl⟩
  | removeOp j => exact ⟨[], (List.append_nil _).symm⟩
  | clearOp => exact ⟨[], (List.append_nil _).symm⟩
  | writeRegOp r v => exact ⟨[], (List.append_nil _).symm⟩
  | writeMemOp a bs =>
    simp only [applyEmuOp, write_memory]
    cases hv : validate_access e a bs.length with
    | none => exact ⟨[], (List.append_nil _).symm⟩
    | some w => cases w <;> exact ⟨[], (List.append_nil _).symm⟩
  | setStateOp s => exact ⟨[], (List.append_nil _).symm⟩
  | stopOp => exact ⟨[], (List.append_nil _).symm⟩

/-- C9: every hook registration returns an id that is non-zero and distinct
from every id returned by an earlier registration on the same emulator,
across its entire lifetime, also after remove_hook and clear_hooks: the
history of issued ids is well-formed at construction, each registration
returns a fresh non-zero id and appends it to the history, and every public
operation preserves well-formedness and only extends the history. -/
theorem claim_C9_hook_ids_unique :
    WfIssued initialEmu.fab ∧
    (∀ (c : HookClass) (e : Emu), WfIssued e.fab →
      (add_hook c e).1 ≠ 0 ∧ (add_hook c e).1 ∉ e.fab.issued ∧
      (add_hook c e).2.fab.issued = e.fab.issued ++ [(add_hook c e).1] ∧
      WfIssued (add_hook c e).2.fab) ∧
    (∀ (op : EmuOp) (e : Emu), WfIssued e.fab →
      WfIssued (applyEmuOp op e).fab ∧
      ∃ t, (applyEmuOp op e).fab.issued = e.fab.issued ++ t) := by
  refine ⟨by unfold WfIssued; decide, ?_, ?_⟩
  · intro c e h
    refine ⟨?_, ?_, rfl, WfIssued_addHookF c h⟩
    · show e.fab.next_hook_id ≠ 0
      have := h.2
      omega
    · intro hmem
      have h2 := (h.1 e.fab.next_hook_id hmem).2
      omega
  · intro op e h
    exact ⟨applyEmuOp_WfIssued op h, applyEmuOp_issued_ext op e⟩

theorem claim_C9_witness :
    (add_hook .onFetch initialEmu).1 ≠ 0 ∧
      (add_hook .onFetch initialEmu).1 ∉ initialEmu.fab.issued := by
  have h := claim_C9_hook_ids_unique.2.1 .onFetch initialEmu (by unfold WfIssued; decide)
  exact ⟨h.1, h.2.1⟩

theorem emulateFuel_time (beh : Beh) (dec : Nat → Instruction) (endAddr : Option Nat) :
    ∀ (fuel : Nat) (e : Emu) (t0 : Nat), t0 < U32 → e.emulated_time < U32 →
      e.cpu.time = (t0 + e.emulated_time) % U32 →
      (emulateFuel beh dec endAddr fuel e).2.cpu.time =
        (t0 + (emulateFuel beh dec endAddr fuel e).2.emulated_time) % U32
  | 0, e, t0, h0, h1, h2 => h2
  | fuel + 1, e, t0, h0, h1, h2 => by
      rw [emulateFuel]
      split
      · exact h2
      · split
        · exact h2
        · cases hs : step beh dec e with
          | error rc =>
            simp only [hs]
            exact h2
          | ok e2 =>
            simp only [hs]
            apply emulateFuel_time beh dec endAddr fuel e2 t0 h0
            · rw [(step_ok_frame hs).2.1]
              show _ % U32 < U32
              exact Nat.mod_lt _ (by norm_num [U32])
            · rw [(step_ok_frame hs).1, (step_ok_frame hs).2.1, h2]
              show ((t0 + e.emulated_time) % U32 + 1) % U32 =
                (t0 + (e.emulated_time + 1) % U32) % U32
              unfold U32
              omega

/-- C10: for every call to emulate — with or without an end address — when
it returns, get_time equals its value before the call plus the returned
get_emulated_time, computed modulo 2^32: the time counters are 32-bit and
wrap, even when max_instructions exceeds 2^32. -/
theorem claim_C10_time_mod32 (beh : Beh) (dec : Nat → Instruction) (endAddr : Option Nat)
    (max_instructions : Nat) (e : Emu) (h : e.cpu.time < U32) :
    get_time (emulate beh dec endAddr max_instructions e).2 =
      (get_time e + get_emulated_time (emulate beh dec endAddr max_instructions e).2) %
        U32 := by
  unfold emulate get_time get_emulated_time
  apply emulateFuel_time beh dec endAddr max_instructions _ e.cpu.time h
  · show (0:Nat) < U32
    norm_num [U32]
  · show e.cpu.time = (e.cpu.time + 0) % U32
    rw [Nat.add_zero]
    exact (Nat.mod_eq_of_lt h).symm

theorem claim_C10_witness :
    get_time (emulate passiveBeh decNOP none 3 emuW).2 = 3 ∧
      get_emulated_time (emulate passiveBeh decNOP none 3 emuW).2 = 3 := by
  have h := claim_C10_time_mod32 passiveBeh decNOP none 3 emuW (by decide)
  constructor
  · rw [h]
    decide
  · decide

end Mulator
